import Mathlib

/-!
Verification of the best-basis wavelet packet code of FingerprintCompression
(src/binarytree.py for branching factor 2, src/quadtree.py for branching
factor 4).  The two Python files implement the same algorithm over a
branching factor `b`: `collect` builds the full depth-limited decomposition
tree, `mark` runs the bottom-up dynamic program setting the `cost` and
`best` fields of every node, `traverse` extracts the minimal-cost tree cut,
and `iwp` / `iwp2` synthesize the original array back from a tree cut.

The embedding below is parameterized by the branching factor `b`, mirroring
the common structure of the two files; coefficient arrays are an abstract
type `α`, the wavelet transform is an abstract `forward : α → List α`
(returning the `b` sub-band arrays), and costs are rationals.  The concrete
cost functions of binarytree.py are embedded over lists of reals.
-/

namespace FingerprintCompression

variable {α : Type}

/-! ### Cost functions (binarytree.py lines 16-30) -/

/-- Embeds `cost_threshold` of binarytree.py: given `(C, threshold)` it
returns the closure `cost_fixed_threshold`, which counts the entries of its
argument whose absolute value exceeds `threshold`.  The first parameter is
unused by the source as well. -/
noncomputable def cost_threshold (_C : List ℝ) (threshold : ℝ) : List ℝ → ℝ :=
  fun C2 => C2.foldl (fun cost c => if threshold < |c| then cost + 1 else cost) 0

/-- Embeds `cost_shannon` of binarytree.py: starts from `0` and, for every
nonzero entry `c`, subtracts `c * c * log2 |c|`. -/
noncomputable def cost_shannon (C : List ℝ) : ℝ :=
  C.foldl (fun cost c => if c ≠ 0 then cost - c * c * Real.logb 2 |c| else cost) 0

lemma cost_threshold_foldl_mono (threshold : ℝ) :
    ∀ (C : List ℝ) (a : ℝ),
      a ≤ C.foldl (fun cost c => if threshold < |c| then cost + 1 else cost) a := by
  intro C
  induction C with
  | nil => intro a; simp
  | cons c cs ih =>
    intro a
    simp only [List.foldl_cons]
    refine le_trans ?_ (ih _)
    by_cases h : threshold < |c| <;> simp [h]

lemma cost_shannon_foldl_mono :
    ∀ (C : List ℝ), (∀ c ∈ C, |c| ≤ 1) → ∀ a : ℝ,
      a ≤ C.foldl (fun cost c => if c ≠ 0 then cost - c * c * Real.logb 2 |c| else cost) a := by
  intro C
  induction C with
  | nil => intro _ a; exact le_rfl
  | cons c cs ih =>
    intro hmem a
    simp only [List.foldl_cons]
    refine le_trans ?_ (ih (fun x hx => hmem x (List.mem_cons_of_mem _ hx)) _)
    by_cases h : c ≠ 0
    · rw [if_pos h]
      have hlog : Real.logb 2 |c| ≤ 0 :=
        Real.logb_nonpos one_lt_two (abs_nonneg c) (hmem c (List.mem_cons_self c cs))
      nlinarith [mul_self_nonneg c]
    · rw [if_neg h]

/-- Claim C6, counterexample: the claim asserts that `cost_shannon` returns a
nonnegative number for every input, but on the one-element array `[2]` it
returns `-4 = -(2 * 2 * log2 2)`, which is negative. -/
theorem cost_shannon_neg_counterexample : cost_shannon [2] < 0 := by
  have h2 : Real.logb 2 2 = 1 := Real.logb_self_eq_one one_lt_two
  have : cost_shannon [2] = 0 - 2 * 2 * Real.logb 2 |(2 : ℝ)| := by
    simp [cost_shannon]
  rw [this, abs_of_pos (by norm_num : (0:ℝ) < 2), h2]
  norm_num

/-- Claim C6 (amended): `cost_threshold` always returns a nonnegative number;
`cost_shannon` returns a nonnegative number on every input whose entries all
have absolute value at most 1 (but can return a negative number otherwise,
see the counterexample). -/
theorem cost_models_nonneg :
    (∀ (C0 : List ℝ) (threshold : ℝ) (C : List ℝ), 0 ≤ cost_threshold C0 threshold C) ∧
    (∀ C : List ℝ, (∀ c ∈ C, |c| ≤ 1) → 0 ≤ cost_shannon C) := by
  constructor
  · intro C0 threshold C
    exact cost_threshold_foldl_mono threshold C 0
  · intro C hC
    exact cost_shannon_foldl_mono C hC 0

/-- Claim C6, witness: the amended theorem applied at concrete inputs. -/
theorem cost_models_nonneg_witness :
    0 ≤ cost_threshold [] 0 [1, -2] ∧ 0 ≤ cost_shannon [1/2, 0] := by
  constructor
  · exact cost_models_nonneg.1 [] 0 [1, -2]
  · refine cost_models_nonneg.2 [1/2, 0] ?_
    intro c hc
    simp only [List.mem_cons, List.not_mem_nil, or_false] at hc
    rcases hc with h | h <;> rw [h, abs_le] <;> constructor <;> norm_num

/-! ### Data model

The Python `node.Node` class is not under src/; its shape is determined by
its uses in binarytree.py / quadtree.py and by the spec (section 3): a
coefficient array `C`, tree coordinates `level` and `index`, and the
mutable bookkeeping fields `cost` and `best` written by `mark`.  We split
it into `Node` (before marking) and `MNode` (after marking); Python float
costs are modelled as rationals. -/

/-- Modelled from the spec: the `node.Node` objects built by `collect`
(file node.py is not part of src/) carry a coefficient array and the
coordinates `(level, index)`. -/
structure Node (α : Type) where
  C : α
  level : Nat
  index : Nat
deriving DecidableEq

/-- Modelled from the spec: a node after `mark` has run, additionally
carrying the `cost` and `best` fields set by the dynamic program. -/
structure MNode (α : Type) where
  C : α
  level : Nat
  index : Nat
  cost : ℚ
  best : ℚ
deriving DecidableEq

/-! ### TreeBuilder: `collect` (binarytree.py lines 47-59, quadtree.py
lines 49-78)

`collect` applies the transform to the signal to obtain the `b` level-0
nodes, then for each level `l = 0 … level-2` splits every parent at
position `p` into its `b` children with indices `b*p+k`.  The transform is
an abstract `forward : α → List α`; branching factor `b` is 2 in
binarytree.py (`pywt.dwt`) and 4 in quadtree.py (`pywt.dwt2`). -/

/-- The nodes built from the sub-band arrays `cs` of one parent: array `k`
(counting from `k0`) becomes the node `(cs[k], l, pbase + k)`.  With
`pbase = b*p` this is `Node(C_k, l, b*p+k)` as in the source. -/
def childNodes (l pbase : Nat) : Nat → List α → List (Node α)
  | _, [] => []
  | k, c :: cs => ⟨c, l, pbase + k⟩ :: childNodes l pbase (k + 1) cs

/-- One pass of the `for p in range(len(Parents))` loop of `collect`:
every parent at position `p0 + j` of level `l` contributes its `b`
children for level `l+1`. -/
def childRow (b : Nat) (forward : α → List α) (l : Nat) :
    Nat → List (Node α) → List (Node α)
  | _, [] => []
  | p, par :: rest =>
    childNodes (l + 1) (b * p) 0 (forward par.C) ++ childRow b forward l (p + 1) rest

/-- The levels `Nodes[l0], Nodes[l0+1], …` produced by iterating
`childRow`, starting from the row `lvl` at level `l0`, for `steps` levels
in total. -/
def collectLevels (b : Nat) (forward : α → List α) :
    Nat → Nat → List (Node α) → List (List (Node α))
  | _, 0, _ => []
  | l, steps + 1, lvl =>
    lvl :: collectLevels b forward (l + 1) steps (childRow b forward l 0 lvl)

/-- Embeds `collect` of binarytree.py / quadtree.py: level 0 holds the `b`
sub-bands of the input signal `S` (node `k` has index `k`), and each
further level holds the children of the previous one.  The Python code
assumes `level ≥ 1` (it stores into `Nodes[0]`). -/
def collect (b : Nat) (forward : α → List α) (S : α) (level : Nat) :
    List (List (Node α)) :=
  collectLevels b forward 0 level (childNodes 0 0 0 (forward S))

/-! ### BestBasisSelector: `mark` (binarytree.py lines 61-76, quadtree.py
lines 80-102) -/

/-- The `cc` value of `mark`: the sum of the `best` fields of the `b`
children `children[b*p], …, children[b*p+b-1]` (out-of-range accesses,
which raise IndexError in Python, contribute the junk value 0 here and are
excluded by the well-formedness hypotheses of every theorem). -/
def childSumL (b : Nat) (children : List (MNode α)) (p : Nat) : ℚ :=
  ((List.range b).map (fun k => ((children[b * p + k]?.map MNode.best).getD 0))).sum

/-- The `for p in range(len(Nodes[-1]))` loop of `mark`: at the deepest
level every node gets `cost = best = costf(C)`. -/
def markLast (costf : α → ℚ) (lvl : List (Node α)) : List (MNode α) :=
  lvl.map (fun n => ⟨n.C, n.level, n.index, costf n.C, costf n.C⟩)

/-- The inner loop of `mark` for one interior level: the node at position
`p` gets `cost = costf(C)` and `best = cost` if `cost ≤ cc`, else
`best = cc`, where `cc` sums the children `best` values one level down. -/
def markRow (b : Nat) (costf : α → ℚ) (children : List (MNode α)) :
    Nat → List (Node α) → List (MNode α)
  | _, [] => []
  | p, n :: rest =>
    ⟨n.C, n.level, n.index, costf n.C,
      if costf n.C ≤ childSumL b children p then costf n.C else childSumL b children p⟩ ::
      markRow b costf children (p + 1) rest

/-- Embeds `mark`: the deepest level is marked by `markLast`, then the
levels `len(Nodes)-2 … 0` are marked bottom-up by `markRow`, each against
the already-marked level below it. -/
def markAll (b : Nat) (costf : α → ℚ) : List (List (Node α)) → List (List (MNode α))
  | [] => []
  | lvl :: rest =>
    match markAll b costf rest with
    | [] => [markLast costf lvl]
    | next :: mrest => markRow b costf next 0 lvl :: next :: mrest

/-! ### BestBasisSelector: `traverse` (binarytree.py lines 78-85,
quadtree.py lines 104-123)

`traverse` appends the node itself when `best == cost` and otherwise
recurses into the `b` children `Nodes[level+1][b*index+k]`, concatenating
their results in index order.  The Lean embedding is fuel-indexed and
returns `none` when the recursion does not bottom out within the fuel or
when a child access is out of range (an IndexError in Python). -/

/-- Processes the child offsets `ks` of one parent: looks up each child at
position `jbase + k` of `row`, runs the continuation `g` (the recursive
traversal) on it, and concatenates the results in order. -/
def travKids (g : MNode α → Option (List (MNode α))) (row : List (MNode α))
    (jbase : Nat) : List Nat → Option (List (MNode α))
  | [] => some []
  | k :: ks =>
    match row[jbase + k]? with
    | none => none
    | some child =>
      match g child, travKids g row jbase ks with
      | some r, some rs => some (r ++ rs)
      | _, _ => none

/-- Embeds `traverse`: fuel-indexed recursion; a marked-tree node with
`best == cost` is returned as a singleton, otherwise the `b` children at
`Nodes[level+1][b*index+k]` are traversed and concatenated. -/
def traverse (b : Nat) (Nodes : List (List (MNode α))) :
    Nat → MNode α → Option (List (MNode α))
  | 0, _ => none
  | fuel + 1, n =>
    if n.best = n.cost then some [n]
    else
      match Nodes[n.level + 1]? with
      | none => none
      | some row => travKids (fun m => traverse b Nodes fuel m) row (b * n.index) (List.range b)

/-- The node sequence produced by running `traverse` on all `b` level-0
roots in index order, as done by `wp` (binarytree.py lines 42-44) and
`wp2` (quadtree.py lines 42-46); the final sort of `wp`/`wp2` (a
permutation) is not part of this sequence. -/
def wpSeq (b : Nat) (T : List (List (MNode α))) : Option (List (MNode α)) :=
  match T[0]? with
  | none => none
  | some row => travKids (fun m => traverse b T T.length m) row 0 (List.range b)

/-! ### Structure of the tree built by `collect` -/

/-- A well-placed row of the decomposition tree: it has the expected
length and the node stored at position `p` carries the coordinates
`(l, p)`. -/
structure GoodRow (l len : Nat) (row : List (Node α)) : Prop where
  hlen : row.length = len
  coords : ∀ (p : Nat) (n : Node α), row[p]? = some n → n.level = l ∧ n.index = p

lemma childNodes_length (l pbase : Nat) :
    ∀ (k0 : Nat) (cs : List α), (childNodes l pbase k0 cs).length = cs.length := by
  intro k0 cs
  induction cs generalizing k0 with
  | nil => rfl
  | cons c cs ih => simp [childNodes, ih]

lemma childNodes_get (l pbase : Nat) :
    ∀ (cs : List α) (k0 j : Nat),
      (childNodes l pbase k0 cs)[j]? = cs[j]?.map (fun c => ⟨c, l, pbase + (k0 + j)⟩) := by
  intro cs
  induction cs with
  | nil => intro k0 j; rfl
  | cons c cs ih =>
    intro k0 j
    cases j with
    | zero => simp [childNodes]
    | succ j =>
      have hstep : (childNodes l pbase k0 (c :: cs))[j+1]? = (childNodes l pbase (k0 + 1) cs)[j]? := by
        rw [childNodes]
        exact List.getElem?_cons_succ
      rw [hstep, ih (k0 + 1) j, List.getElem?_cons_succ]
      have : k0 + 1 + j = k0 + (j + 1) := by omega
      rw [this]

lemma childRow_length {b : Nat} {forward : α → List α} {l : Nat}
    (hb : ∀ C : α, (forward C).length = b) :
    ∀ (parents : List (Node α)) (p0 : Nat),
      (childRow b forward l p0 parents).length = b * parents.length := by
  intro parents
  induction parents with
  | nil => intro p0; simp [childRow]
  | cons par rest ih =>
    intro p0
    simp [childRow, childNodes_length, hb, ih, Nat.mul_succ, Nat.add_comm]

lemma childRow_get {b : Nat} {forward : α → List α} {l : Nat}
    (hb0 : 0 < b) (hb : ∀ C : α, (forward C).length = b) :
    ∀ (parents : List (Node α)) (p0 i : Nat), i < b * parents.length →
      ∃ par c, parents[i / b]? = some par ∧ (forward par.C)[i % b]? = some c ∧
        (childRow b forward l p0 parents)[i]? = some ⟨c, l + 1, b * p0 + i⟩ := by
  intro parents
  induction parents with
  | nil => intro p0 i hi; simp at hi
  | cons par rest ih =>
    intro p0 i hi
    have hlen : (childNodes (l + 1) (b * p0) 0 (forward par.C)).length = b := by
      rw [childNodes_length, hb]
    by_cases hib : i < b
    · have hdiv : i / b = 0 := Nat.div_eq_of_lt hib
      have hmod : i % b = i := Nat.mod_eq_of_lt hib
      cases hc : (forward par.C)[i]? with
      | none =>
        exfalso
        rw [List.getElem?_eq_none_iff, hb] at hc
        omega
      | some c =>
        refine ⟨par, c, ?_, ?_, ?_⟩
        · rw [hdiv]; exact List.getElem?_cons_zero
        · rw [hmod]; exact hc
        · rw [childRow]
          rw [List.getElem?_append_left (by rw [hlen]; exact hib)]
          rw [childNodes_get, hc]
          simp
    · push_neg at hib
      have hi' : i - b < b * rest.length := by
        simp only [List.length_cons, Nat.mul_succ] at hi
        omega
      rcases ih (p0 + 1) (i - b) hi' with ⟨par2, c, hpar, hc, hrow⟩
      refine ⟨par2, c, ?_, ?_, ?_⟩
      · have hdiv : i / b = (i - b) / b + 1 := Nat.div_eq_sub_div hb0 hib
        rw [hdiv, List.getElem?_cons_succ]
        exact hpar
      · have hmod : i % b = (i - b) % b := Nat.mod_eq_sub_mod hib
        rw [hmod]; exact hc
      · rw [childRow]
        rw [List.getElem?_append_right (by rw [hlen]; exact hib)]
        rw [hlen, hrow]
        have : b * (p0 + 1) + (i - b) = b * p0 + i := by
          rw [Nat.mul_succ]; omega
        rw [this]

lemma childRow_good {b : Nat} {forward : α → List α}
    (hb0 : 0 < b) (hb : ∀ C : α, (forward C).length = b)
    {l len : Nat} {row : List (Node α)} (h : GoodRow l len row) :
    GoodRow (l + 1) (b * len) (childRow b forward l 0 row) := by
  constructor
  · rw [childRow_length hb, h.hlen]
  · intro p n hpn
    have hp : p < (childRow b forward l 0 row).length :=
      (List.getElem?_eq_some.mp hpn).1
    rw [childRow_length hb] at hp
    rcases @childRow_get α b forward l hb0 hb row 0 p hp with ⟨par, c, _, _, hrow⟩
    rw [hpn] at hrow
    have hn : n = ⟨c, l + 1, b * 0 + p⟩ := Option.some.inj hrow
    rw [hn]
    refine ⟨rfl, ?_⟩
    show b * 0 + p = p
    omega

lemma collectLevels_length {b : Nat} {forward : α → List α} :
    ∀ (steps l0 : Nat) (lvl : List (Node α)),
      (collectLevels b forward l0 steps lvl).length = steps := by
  intro steps
  induction steps with
  | zero => intro l0 lvl; rfl
  | succ steps ih => intro l0 lvl; simp only [collectLevels, List.length_cons, ih]

lemma collectLevels_get_zero {b : Nat} {forward : α → List α}
    {steps : Nat} (h : 0 < steps) (l0 : Nat) (lvl : List (Node α)) :
    (collectLevels b forward l0 steps lvl)[0]? = some lvl := by
  cases steps with
  | zero => omega
  | succ steps => exact List.getElem?_cons_zero

lemma collectLevels_succ {b : Nat} {forward : α → List α}
    (l0 steps : Nat) (lvl : List (Node α)) :
    collectLevels b forward l0 (steps + 1) lvl =
      lvl :: collectLevels b forward (l0 + 1) steps (childRow b forward l0 0 lvl) := rfl

lemma collectLevels_spec {b : Nat} {forward : α → List α}
    (hb0 : 0 < b) (hb : ∀ C : α, (forward C).length = b) :
    ∀ (steps l0 len0 : Nat) (lvl : List (Node α)), GoodRow l0 len0 lvl →
      ∀ j, j < steps →
        ∃ row, (collectLevels b forward l0 steps lvl)[j]? = some row ∧
          GoodRow (l0 + j) (b ^ j * len0) row ∧
          (j + 1 < steps →
            (collectLevels b forward l0 steps lvl)[j+1]? =
              some (childRow b forward (l0 + j) 0 row)) := by
  intro steps
  induction steps with
  | zero => intro l0 len0 lvl _ j hj; omega
  | succ steps ih =>
    intro l0 len0 lvl hgood j hj
    cases j with
    | zero =>
      refine ⟨lvl, ?_, ?_, ?_⟩
      · rw [collectLevels_succ]; exact List.getElem?_cons_zero
      · have h2 : b ^ 0 * len0 = len0 := by ring
        rw [Nat.add_zero, h2]
        exact hgood
      · intro h1
        rw [collectLevels_succ, List.getElem?_cons_succ,
          collectLevels_get_zero (by omega) (l0 + 1) _, Nat.add_zero]
    | succ j =>
      have hgood2 : GoodRow (l0 + 1) (b * len0) (childRow b forward l0 0 lvl) :=
        childRow_good hb0 hb hgood
      rcases ih (l0 + 1) (b * len0) _ hgood2 j (by omega) with ⟨row, hget, hrowgood, hlink⟩
      have h1 : l0 + 1 + j = l0 + (j + 1) := by omega
      refine ⟨row, ?_, ?_, ?_⟩
      · rw [collectLevels_succ, List.getElem?_cons_succ]
        exact hget
      · have h2 : b ^ j * (b * len0) = b ^ (j + 1) * len0 := by ring
        rw [h1, h2] at hrowgood
        exact hrowgood
      · intro hlt
        rw [collectLevels_succ, List.getElem?_cons_succ, ← h1]
        exact hlink (by omega)

lemma collect_spec {b : Nat} {forward : α → List α}
    (hb0 : 0 < b) (hb : ∀ C : α, (forward C).length = b) (S : α) (d : Nat) :
    (collect b forward S d).length = d ∧
    ∀ l, l < d →
      ∃ row, (collect b forward S d)[l]? = some row ∧ GoodRow l (b ^ (l + 1)) row ∧
        (l + 1 < d →
          (collect b forward S d)[l+1]? = some (childRow b forward l 0 row)) := by
  have hroot : GoodRow 0 b (childNodes 0 0 0 (forward S)) := by
    constructor
    · rw [childNodes_length, hb]
    · intro p n hpn
      rw [childNodes_get] at hpn
      rcases Option.map_eq_some'.mp hpn with ⟨c, _, hn⟩
      rw [← hn]
      exact ⟨rfl, by show 0 + (0 + p) = p; omega⟩
  constructor
  · exact collectLevels_length d 0 _
  · intro l hl
    rcases collectLevels_spec hb0 hb d 0 b _ hroot l hl with ⟨row, hget, hgood, hlink⟩
    have h1 : 0 + l = l := by omega
    refine ⟨row, hget, ?_, ?_⟩
    · have h2 : b ^ l * b = b ^ (l + 1) := by ring
      rw [h1, h2] at hgood
      exact hgood
    · intro hlt
      have := hlink hlt
      rw [h1] at this
      exact this

lemma map_length_sum_of_sizes :
    ∀ (T : List (List (Node α))) (g : Nat → Nat),
      (∀ (l : Nat) (row : List (Node α)), T[l]? = some row → row.length = g l) →
      (T.map List.length).sum = ∑ l ∈ Finset.range T.length, g l := by
  intro T
  induction T with
  | nil => intro g _; simp
  | cons row rest ih =>
    intro g hg
    have h0 : row.length = g 0 := hg 0 row List.getElem?_cons_zero
    have hrest : (rest.map List.length).sum = ∑ l ∈ Finset.range rest.length, g (l + 1) :=
      ih (fun l => g (l + 1))
        (fun l r hr => hg (l + 1) r (by rw [List.getElem?_cons_succ]; exact hr))
    simp only [List.map_cons, List.sum_cons, List.length_cons, hrest, h0,
      Finset.sum_range_succ']
    exact Nat.add_comm _ _

/-- Claim C7: `collect` builds the full depth-limited tree: it returns
`depth` levels, level `l` holds exactly `b^(l+1)` nodes for `0 ≤ l < depth`
(hence `b + b² + … + b^depth` nodes in total), and child `k` (`0 ≤ k < b`)
of the parent at `(level l, index p)` is created at
`(level l+1, index b·p+k)` from that parent's coefficient array. -/
theorem collect_full_tree (b d : Nat) (forward : α → List α) (S : α)
    (hb0 : 0 < b) (hb : ∀ C, (forward C).length = b) (_hd : 0 < d) :
    (collect b forward S d).length = d ∧
    (∀ l, l < d → ∃ row, (collect b forward S d)[l]? = some row ∧ row.length = b ^ (l + 1)) ∧
    ((collect b forward S d).map List.length).sum = ∑ l ∈ Finset.range d, b ^ (l + 1) ∧
    (∀ l p k, l + 1 < d → p < b ^ (l + 1) → k < b →
      ∃ par child row row2,
        (collect b forward S d)[l]? = some row ∧ row[p]? = some par ∧
        par.level = l ∧ par.index = p ∧
        (collect b forward S d)[l+1]? = some row2 ∧ row2[b * p + k]? = some child ∧
        child.level = l + 1 ∧ child.index = b * p + k ∧
        (forward par.C)[k]? = some child.C) := by
  rcases collect_spec hb0 hb S d with ⟨hlen, hrows⟩
  refine ⟨hlen, ?_, ?_, ?_⟩
  · intro l hl
    rcases hrows l hl with ⟨row, hget, hgood, _⟩
    exact ⟨row, hget, hgood.hlen⟩
  · rw [map_length_sum_of_sizes _ (fun l => b ^ (l + 1)), hlen]
    intro l row hr
    have hl : l < d := by
      have := (List.getElem?_eq_some.mp hr).1
      omega
    rcases hrows l hl with ⟨row2, hget, hgood, _⟩
    rw [hr] at hget
    rw [Option.some.inj hget]
    exact hgood.hlen
  · intro l p k hl hp hk
    rcases hrows l (by omega) with ⟨row, hget, hgood, hlink⟩
    have hi : b * p + k < b * b ^ (l + 1) := by
      calc b * p + k < b * p + b := by omega
        _ = b * (p + 1) := by ring
        _ ≤ b * b ^ (l + 1) := Nat.mul_le_mul_left b hp
    rcases @childRow_get α b forward l hb0 hb row 0 (b * p + k)
        (by rw [hgood.hlen]; exact hi) with ⟨par, c, hpar, hc, hrow2⟩
    have hdiv : (b * p + k) / b = p := by
      rw [Nat.mul_add_div hb0, Nat.div_eq_of_lt hk]
      omega
    have hmod : (b * p + k) % b = k := by
      rw [Nat.mul_add_mod, Nat.mod_eq_of_lt hk]
    rw [hdiv] at hpar
    rw [hmod] at hc
    have hidx : b * 0 + (b * p + k) = b * p + k := by omega
    rw [hidx] at hrow2
    exact ⟨par, ⟨c, l + 1, b * p + k⟩, row, childRow b forward l 0 row,
      hget, hpar, (hgood.coords p par hpar).1, (hgood.coords p par hpar).2,
      hlink hl, hrow2, rfl, rfl, hc⟩

/-- Claim C7, witness: the theorem applied to the branching-factor-2
transform `c ↦ [c, c+1]` on signal `0` at depth 2. -/
theorem collect_full_tree_witness :
    (collect 2 (fun c => [c, c + 1]) (0 : ℕ) 2).length = 2 :=
  (collect_full_tree 2 2 (fun c => [c, c + 1]) 0 (by omega) (fun _ => rfl) (by omega)).1

/-! ### Structure of the tree produced by `mark` -/

/-- The `best` field of the node stored at `(l, p)` of a marked tree
(0 when the position does not exist). -/
def bestAtPos (T : List (List (MNode α))) (l p : Nat) : ℚ :=
  ((T[l]?.bind (fun row => row[p]?)).map MNode.best).getD 0

/-- The `cost` field of the node stored at `(l, p)` of a marked tree
(0 when the position does not exist). -/
def costAtPos (T : List (List (MNode α))) (l p : Nat) : ℚ :=
  ((T[l]?.bind (fun row => row[p]?)).map MNode.cost).getD 0

/-- The `cc` value of `mark` read off a fully marked tree: the sum of the
`best` fields of the `b` children of the node at `(l, p)`. -/
def childSum (b : Nat) (T : List (List (MNode α))) (l p : Nat) : ℚ :=
  ((List.range b).map (fun k => bestAtPos T (l + 1) (b * p + k))).sum

lemma markLast_get (costf : α → ℚ) (lvl : List (Node α)) (i : Nat) :
    (markLast costf lvl)[i]? =
      lvl[i]?.map (fun n => ⟨n.C, n.level, n.index, costf n.C, costf n.C⟩) :=
  List.getElem?_map _ lvl i

lemma markRow_get (b : Nat) (costf : α → ℚ) (ch : List (MNode α)) :
    ∀ (lvl : List (Node α)) (p0 i : Nat),
      (markRow b costf ch p0 lvl)[i]? = lvl[i]?.map (fun n =>
        ⟨n.C, n.level, n.index, costf n.C,
          if costf n.C ≤ childSumL b ch (p0 + i) then costf n.C
          else childSumL b ch (p0 + i)⟩) := by
  intro lvl
  induction lvl with
  | nil => intro p0 i; rfl
  | cons n rest ih =>
    intro p0 i
    cases i with
    | zero =>
      rw [markRow]
      rw [List.getElem?_cons_zero, List.getElem?_cons_zero]
      rfl
    | succ i =>
      rw [markRow]
      rw [List.getElem?_cons_succ, List.getElem?_cons_succ, ih (p0 + 1) i]
      have : p0 + 1 + i = p0 + (i + 1) := by omega
      rw [this]

lemma markRow_length (b : Nat) (costf : α → ℚ) (ch : List (MNode α)) :
    ∀ (lvl : List (Node α)) (p0 : Nat), (markRow b costf ch p0 lvl).length = lvl.length := by
  intro lvl
  induction lvl with
  | nil => intro p0; rfl
  | cons n rest ih => intro p0; simp [markRow, ih]

lemma markAll_length (b : Nat) (costf : α → ℚ) :
    ∀ N : List (List (Node α)), (markAll b costf N).length = N.length := by
  intro N
  induction N with
  | nil => rfl
  | cons lvl rest ih =>
    cases h : markAll b costf rest with
    | nil =>
      have heq : markAll b costf (lvl :: rest) = [markLast costf lvl] := by
        rw [markAll, h]
      have hr : rest.length = 0 := by rw [← ih, h]; rfl
      rw [heq]
      simp [hr]
    | cons next mrest =>
      have heq : markAll b costf (lvl :: rest) =
          markRow b costf next 0 lvl :: next :: mrest := by
        rw [markAll, h]
      rw [heq]
      simp only [List.length_cons]
      rw [← ih, h]
      simp

lemma markAll_get (b : Nat) (costf : α → ℚ) :
    ∀ (N : List (List (Node α))) (l : Nat) (row : List (Node α)), N[l]? = some row →
      (markAll b costf N)[l]? =
        some (if l + 1 = N.length then markLast costf row
          else markRow b costf (((markAll b costf N)[l+1]?).getD []) 0 row) := by
  intro N
  induction N with
  | nil => intro l row h; simp at h
  | cons lvl rest ih =>
    intro l row hrow
    cases l with
    | zero =>
      rw [List.getElem?_cons_zero] at hrow
      have hlvl : lvl = row := Option.some.inj hrow
      subst hlvl
      cases h : markAll b costf rest with
      | nil =>
        have hr : rest.length = 0 := by rw [← markAll_length b costf rest, h]; rfl
        have heq : markAll b costf (lvl :: rest) = [markLast costf lvl] := by
          rw [markAll, h]
        rw [heq]
        have hcond : 0 + 1 = (lvl :: rest).length := by simp [hr]
        rw [if_pos hcond]
        exact List.getElem?_cons_zero
      | cons next mrest =>
        have hr : rest.length = mrest.length + 1 := by
          rw [← markAll_length b costf rest, h]; rfl
        have heq : markAll b costf (lvl :: rest) =
            markRow b costf next 0 lvl :: next :: mrest := by
          rw [markAll, h]
        rw [heq]
        have hcond : ¬ (0 + 1 = (lvl :: rest).length) := by simp [hr]
        rw [if_neg hcond]
        have hnext : (markRow b costf next 0 lvl :: next :: mrest)[0+1]? = some next := by
          rw [List.getElem?_cons_succ]
          exact List.getElem?_cons_zero
        rw [hnext]
        exact List.getElem?_cons_zero
    | succ l =>
      rw [List.getElem?_cons_succ] at hrow
      cases h : markAll b costf rest with
      | nil =>
        exfalso
        have hr : rest.length = 0 := by rw [← markAll_length b costf rest, h]; rfl
        have : l < rest.length := (List.getElem?_eq_some.mp hrow).1
        omega
      | cons next mrest =>
        have heq : markAll b costf (lvl :: rest) =
            markRow b costf next 0 lvl :: next :: mrest := by
          rw [markAll, h]
        have hih := ih l row hrow
        rw [h] at hih
        rw [heq, List.getElem?_cons_succ]
        conv_rhs => rw [List.getElem?_cons_succ]
        rw [hih]
        by_cases hc : l + 1 = rest.length
        · rw [if_pos hc, if_pos (by simp [List.length_cons, hc])]
        · rw [if_neg hc, if_neg (by simp only [List.length_cons]; omega)]

/-- Well-formedness of a marked tree, as established by running `mark` on a
tree built by `collect`: level sizes, coordinates, and the dynamic-program
equations for the `best` field. -/
structure WFT (b : Nat) (T : List (List (MNode α))) : Prop where
  sizes : ∀ (l : Nat) (row : List (MNode α)), T[l]? = some row → row.length = b ^ (l + 1)
  coords : ∀ (l p : Nat) (row : List (MNode α)) (n : MNode α),
    T[l]? = some row → row[p]? = some n → n.level = l ∧ n.index = p
  leaf_best : ∀ (p : Nat) (row : List (MNode α)) (n : MNode α),
    T[T.length - 1]? = some row → row[p]? = some n → n.best = n.cost
  step_best : ∀ (l p : Nat) (row : List (MNode α)) (n : MNode α), l + 1 < T.length →
    T[l]? = some row → row[p]? = some n →
    n.best = if n.cost ≤ childSum b T l p then n.cost else childSum b T l p

lemma childSum_eq_childSumL {b : Nat} {T : List (List (MNode α))} {l p : Nat}
    {ch : List (MNode α)} (h : T[l+1]? = some ch) :
    childSum b T l p = childSumL b ch p := by
  unfold childSum childSumL bestAtPos
  congr 1
  apply List.map_congr_left
  intro k _
  rw [h]
  rfl

lemma markAll_collect_WFT {b d : Nat} {forward : α → List α} (costf : α → ℚ) (S : α)
    (hb0 : 0 < b) (hb : ∀ C : α, (forward C).length = b) :
    WFT b (markAll b costf (collect b forward S d)) := by
  rcases collect_spec hb0 hb S d with ⟨hlen, hrows⟩
  have hmlen : (markAll b costf (collect b forward S d)).length = d := by
    rw [markAll_length, hlen]
  constructor
  · -- sizes
    intro l row hrow
    have hl : l < d := by
      have := (List.getElem?_eq_some.mp hrow).1
      omega
    rcases hrows l hl with ⟨row0, hget0, hgood0, _⟩
    have := markAll_get b costf _ l row0 hget0
    rw [hrow] at this
    rw [Option.some.inj this]
    by_cases hc : l + 1 = (collect b forward S d).length
    · rw [if_pos hc]
      unfold markLast
      rw [List.length_map, hgood0.hlen]
    · rw [if_neg hc]
      rw [markRow_length, hgood0.hlen]
  · -- coords
    intro l p row n hrow hn
    have hl : l < d := by
      have := (List.getElem?_eq_some.mp hrow).1
      omega
    rcases hrows l hl with ⟨row0, hget0, hgood0, _⟩
    have := markAll_get b costf _ l row0 hget0
    rw [hrow] at this
    have hroweq := Option.some.inj this
    rw [hroweq] at hn
    by_cases hc : l + 1 = (collect b forward S d).length
    · rw [if_pos hc, markLast_get] at hn
      rcases Option.map_eq_some'.mp hn with ⟨n0, hn0, hneq⟩
      have := hgood0.coords p n0 hn0
      rw [← hneq]
      exact this
    · rw [if_neg hc, markRow_get] at hn
      rcases Option.map_eq_some'.mp hn with ⟨n0, hn0, hneq⟩
      have := hgood0.coords p n0 hn0
      rw [← hneq]
      exact this
  · -- leaf_best
    intro p row n hrow hn
    have hl : d - 1 < d := by
      have := (List.getElem?_eq_some.mp hrow).1
      omega
    rw [hmlen] at hrow
    rcases hrows (d - 1) hl with ⟨row0, hget0, hgood0, _⟩
    have := markAll_get b costf _ (d - 1) row0 hget0
    rw [hrow] at this
    have hroweq := Option.some.inj this
    rw [hroweq] at hn
    have hc : d - 1 + 1 = (collect b forward S d).length := by rw [hlen]; omega
    rw [if_pos hc, markLast_get] at hn
    rcases Option.map_eq_some'.mp hn with ⟨n0, _, hneq⟩
    rw [← hneq]
  · -- step_best
    intro l p row n hstep hrow hn
    rw [hmlen] at hstep
    rcases hrows l (by omega) with ⟨row0, hget0, hgood0, _⟩
    have := markAll_get b costf _ l row0 hget0
    rw [hrow] at this
    have hroweq := Option.some.inj this
    rw [hroweq] at hn
    have hc : ¬ (l + 1 = (collect b forward S d).length) := by rw [hlen]; omega
    rw [if_neg hc, markRow_get] at hn
    rcases Option.map_eq_some'.mp hn with ⟨n0, _, hneq⟩
    have hch : ∃ ch, (markAll b costf (collect b forward S d))[l+1]? = some ch := by
      have : l + 1 < (markAll b costf (collect b forward S d)).length := by omega
      exact ⟨_, List.getElem?_eq_getElem this⟩
    rcases hch with ⟨ch, hch⟩
    have hsum : childSum b (markAll b costf (collect b forward S d)) l p =
        childSumL b ch p := childSum_eq_childSumL hch
    rw [hsum]
    have hgetd : ((markAll b costf (collect b forward S d))[l+1]?).getD [] = ch := by
      rw [hch]; rfl
    rw [hgetd] at hneq
    rw [← hneq]
    show (if costf n0.C ≤ childSumL b ch (0 + p) then costf n0.C else childSumL b ch (0 + p)) =
      if costf n0.C ≤ childSumL b ch p then costf n0.C else childSumL b ch p
    rw [Nat.zero_add]

/-- Claim C2: `mark` implements the bottom-up dynamic program.  On any tree
built by `collect`, every deepest-level node gets `cost = best = costf(C)`;
every interior node gets `cost = costf(C)` unconditionally and
`best = cost` when `cost` is less than or equal to the sum of the `b`
children's `best` values, otherwise `best` is that sum — on a tie the node
itself is preferred (the `≤` in the condition). -/
theorem mark_dynamic_program (b d : Nat) (costf : α → ℚ) (forward : α → List α) (S : α)
    (hb0 : 0 < b) (hb : ∀ C, (forward C).length = b)
    (l p : Nat) (row : List (MNode α)) (n : MNode α)
    (hrow : (markAll b costf (collect b forward S d))[l]? = some row)
    (hn : row[p]? = some n) :
    n.cost = costf n.C ∧
    (l + 1 = d → n.best = n.cost) ∧
    (l + 1 < d → n.best =
      if n.cost ≤ childSum b (markAll b costf (collect b forward S d)) l p
      then n.cost
      else childSum b (markAll b costf (collect b forward S d)) l p) := by
  rcases collect_spec hb0 hb S d with ⟨hlen, hrows⟩
  have hl : l < d := by
    have := (List.getElem?_eq_some.mp hrow).1
    rw [markAll_length, hlen] at this
    exact this
  rcases hrows l hl with ⟨row0, hget0, _, _⟩
  have hmg := markAll_get b costf _ l row0 hget0
  rw [hrow] at hmg
  have hroweq := Option.some.inj hmg
  rw [hroweq] at hn
  have hwft : WFT b (markAll b costf (collect b forward S d)) :=
    markAll_collect_WFT costf S hb0 hb
  refine ⟨?_, ?_, ?_⟩
  · -- cost = costf C
    by_cases hc : l + 1 = (collect b forward S d).length
    · rw [if_pos hc, markLast_get] at hn
      rcases Option.map_eq_some'.mp hn with ⟨n0, _, hneq⟩
      rw [← hneq]
    · rw [if_neg hc, markRow_get] at hn
      rcases Option.map_eq_some'.mp hn with ⟨n0, _, hneq⟩
      rw [← hneq]
  · -- deepest level
    intro hld
    have hlast : (markAll b costf (collect b forward S d)).length - 1 = l := by
      rw [markAll_length, hlen]; omega
    refine hwft.leaf_best p row n ?_ ?_
    · rw [hlast]; exact hrow
    · rw [hroweq]; exact hn
  · -- interior level
    intro hld
    refine hwft.step_best l p row n ?_ hrow ?_
    · rw [markAll_length, hlen]; omega
    · rw [hroweq]; exact hn

/-- Claim C2, witness: the theorem applied to the depth-2 tree over the
transform `c ↦ [c, c+1]` with the identity cost on rationals. -/
theorem mark_dynamic_program_witness :
    ∃ (row : List (MNode ℚ)) (n : MNode ℚ),
      (markAll 2 id (collect 2 (fun c => [c, c + 1]) (0 : ℚ) 2))[0]? = some row ∧
      row[0]? = some n ∧ n.cost = n.C := by
  refine ⟨_, _, rfl, rfl, ?_⟩
  have h := mark_dynamic_program 2 2 id (fun c => [c, c + 1]) (0 : ℚ) (by omega)
    (fun _ => rfl) 0 0 _ _ rfl rfl
  exact h.1

/-- Claim C4: after `mark` runs on any tree with any cost function, every
node satisfies `best ≤ cost`, and every node of the deepest level satisfies
`best = cost`. -/
theorem mark_best_le_cost (b : Nat) (costf : α → ℚ) (N : List (List (Node α)))
    (l p : Nat) (row : List (MNode α)) (n : MNode α)
    (hrow : (markAll b costf N)[l]? = some row) (hn : row[p]? = some n) :
    n.best ≤ n.cost ∧ (l + 1 = N.length → n.best = n.cost) := by
  have hl : l < N.length := by
    have := (List.getElem?_eq_some.mp hrow).1
    rw [markAll_length] at this
    exact this
  have hrow0 : ∃ row0, N[l]? = some row0 := ⟨_, List.getElem?_eq_getElem hl⟩
  rcases hrow0 with ⟨row0, hget0⟩
  have hmg := markAll_get b costf N l row0 hget0
  rw [hrow] at hmg
  have hroweq := Option.some.inj hmg
  rw [hroweq] at hn
  by_cases hc : l + 1 = N.length
  · rw [if_pos hc, markLast_get] at hn
    rcases Option.map_eq_some'.mp hn with ⟨n0, _, hneq⟩
    rw [← hneq]
    exact ⟨le_rfl, fun _ => rfl⟩
  · rw [if_neg hc, markRow_get] at hn
    rcases Option.map_eq_some'.mp hn with ⟨n0, _, hneq⟩
    rw [← hneq]
    constructor
    · show (if costf n0.C ≤ childSumL b _ (0 + p) then costf n0.C else childSumL b _ (0 + p)) ≤
        costf n0.C
      by_cases hle : costf n0.C ≤ childSumL b (((markAll b costf N)[l+1]?).getD []) (0 + p)
      · rw [if_pos hle]
      · rw [if_neg hle]
        exact le_of_lt (lt_of_not_le hle)
    · intro h
      exact absurd h hc

/-- Claim C4, witness: the theorem applied at the root of a marked depth-2
tree. -/
theorem mark_best_le_cost_witness :
    ∃ (row : List (MNode ℚ)) (n : MNode ℚ),
      (markAll 2 id (collect 2 (fun c => [c, c + 1]) (0 : ℚ) 2))[0]? = some row ∧
      row[0]? = some n ∧ n.best ≤ n.cost := by
  refine ⟨_, _, rfl, rfl, ?_⟩
  exact (mark_best_le_cost 2 id (collect 2 (fun c => [c, c + 1]) (0 : ℚ) 2)
    0 0 _ _ rfl rfl).1

/-! ### Arithmetic of tree coordinates

A node at level `l` of the forest (levels `0 … d-1`) lies on the
root-to-leaf path of leaf `q` (a position at the deepest level `d-1`)
exactly when its index is `q / b^(d-1-l)`. -/

lemma div_eq_iff_between {b : Nat} (hb0 : 0 < b) (a p : Nat) :
    a / b = p ↔ (b * p ≤ a ∧ a < b * p + b) := by
  constructor
  · intro h
    have hd := Nat.div_add_mod a b
    have hm : a % b < b := Nat.mod_lt a hb0
    rw [h] at hd
    omega
  · intro h
    have hc : p * b = b * p := Nat.mul_comm p b
    have hle : p ≤ a / b := (Nat.le_div_iff_mul_le hb0).mpr (by omega)
    have hc2 : (p + 1) * b = p * b + b := by ring
    have hlt : a / b < p + 1 := (Nat.div_lt_iff_lt_mul hb0).mpr (by omega)
    omega

lemma div_div_pow {b : Nat} (q i j : Nat) : q / b ^ i / b ^ j = q / b ^ (i + j) := by
  rw [Nat.div_div_eq_div_mul, pow_add]

lemma countP_range_between (b jbase a : Nat) :
    (List.range b).countP (fun k => decide (a = jbase + k)) =
      if jbase ≤ a ∧ a < jbase + b then 1 else 0 := by
  induction b with
  | zero =>
    simp only [List.range_zero, List.countP_nil]
    split_ifs with h
    · omega
    · rfl
  | succ b ih =>
    rw [List.range_succ, List.countP_append, ih]
    simp only [List.countP_cons, List.countP_nil, decide_eq_true_eq]
    split_ifs <;> omega

/-! ### Soundness of `traverse` on marked trees

`TravP b T fuel` is the induction statement for `traverse` on a
well-formed marked tree `T`: starting from the node stored at `(l, p)`
with enough fuel, `traverse` succeeds, the costs of the returned nodes sum
to the node\'s `best` value, every returned node is a tree node of the
subtree below `(l, p)`, and every leaf-path through `(l, p)` meets the
returned set exactly once (and paths avoiding `(l, p)` never). -/

def TravP (b : Nat) (T : List (List (MNode α))) (fuel : Nat) : Prop :=
  ∀ (l p : Nat) (row : List (MNode α)) (n : MNode α),
    l < T.length → T[l]? = some row → row[p]? = some n → T.length - l ≤ fuel →
    ∃ R, traverse b T fuel n = some R ∧
      (R.map MNode.cost).sum = n.best ∧
      (∀ m ∈ R, l ≤ m.level ∧ m.level < T.length ∧ m.index < b ^ (m.level + 1) ∧
        m.index / b ^ (m.level - l) = p ∧
        ∃ row3, T[m.level]? = some row3 ∧ row3[m.index]? = some m) ∧
      (∀ q, q < b ^ T.length →
        R.countP (fun m => decide (m.index = q / b ^ (T.length - 1 - m.level))) =
          if q / b ^ (T.length - 1 - l) = p then 1 else 0)

/-- The corresponding statement for `travKids` processing the child
offsets `ks` against the row at level `lc`. -/
def TravKidsP (b : Nat) (T : List (List (MNode α))) (fuel : Nat) : Prop :=
  ∀ (lc jbase : Nat) (row2 : List (MNode α)) (ks : List Nat),
    lc < T.length → T[lc]? = some row2 → T.length - lc ≤ fuel →
    (∀ k ∈ ks, jbase + k < b ^ (lc + 1)) →
    ∃ Rs, travKids (fun m => traverse b T fuel m) row2 jbase ks = some Rs ∧
      (Rs.map MNode.cost).sum = (ks.map (fun k => bestAtPos T lc (jbase + k))).sum ∧
      (∀ m ∈ Rs, lc ≤ m.level ∧ m.level < T.length ∧ m.index < b ^ (m.level + 1) ∧
        (∃ k ∈ ks, m.index / b ^ (m.level - lc) = jbase + k) ∧
        ∃ row3, T[m.level]? = some row3 ∧ row3[m.index]? = some m) ∧
      (∀ q, q < b ^ T.length →
        Rs.countP (fun m => decide (m.index = q / b ^ (T.length - 1 - m.level))) =
          ks.countP (fun k => decide (q / b ^ (T.length - 1 - lc) = jbase + k)))

lemma travKids_of_traverse {b : Nat} {T : List (List (MNode α))}
    (hwft : WFT b T) (fuel : Nat) (hP : TravP b T fuel) : TravKidsP b T fuel := by
  intro lc jbase row2 ks hlc hrow2 hfuel
  induction ks with
  | nil =>
    intro _
    exact ⟨[], rfl, by simp, by simp, by simp⟩
  | cons k ks ihks =>
    intro hbounds
    have hkb : jbase + k < b ^ (lc + 1) := hbounds k (List.mem_cons_self k ks)
    have hszc : row2.length = b ^ (lc + 1) := hwft.sizes lc row2 hrow2
    have hchild : ∃ child, row2[jbase + k]? = some child :=
      ⟨_, List.getElem?_eq_getElem (by omega)⟩
    rcases hchild with ⟨child, hchild⟩
    rcases hP lc (jbase + k) row2 child hlc hrow2 hchild hfuel with
      ⟨R1, htrav1, hsum1, hmem1, hcount1⟩
    rcases ihks (fun k2 hk2 => hbounds k2 (List.mem_cons_of_mem k hk2)) with
      ⟨Rs, htravs, hsums, hmems, hcounts⟩
    refine ⟨R1 ++ Rs, ?_, ?_, ?_, ?_⟩
    · simp only [travKids, hchild, htrav1, htravs]
    · rw [List.map_append, List.sum_append, hsum1, hsums]
      have hbp : bestAtPos T lc (jbase + k) = child.best := by
        unfold bestAtPos
        rw [hrow2]
        show ((row2[jbase + k]?).map MNode.best).getD 0 = child.best
        rw [hchild]
        rfl
      rw [List.map_cons, List.sum_cons, hbp]
    · intro m hm
      rcases List.mem_append.mp hm with hm1 | hm2
      · rcases hmem1 m hm1 with ⟨hle, hlt, hidx, hdiv, hrow3⟩
        exact ⟨hle, hlt, hidx, ⟨k, List.mem_cons_self k ks, hdiv⟩, hrow3⟩
      · rcases hmems m hm2 with ⟨hle, hlt, hidx, ⟨k2, hk2, hdiv⟩, hrow3⟩
        exact ⟨hle, hlt, hidx, ⟨k2, List.mem_cons_of_mem k hk2, hdiv⟩, hrow3⟩
    · intro q hq
      rw [List.countP_append, hcount1 q hq, hcounts q hq, List.countP_cons]
      simp only [decide_eq_true_eq]
      split_ifs <;> omega

lemma traverse_sound {b : Nat} {T : List (List (MNode α))}
    (hwft : WFT b T) (hb0 : 0 < b) : ∀ fuel : Nat, TravP b T fuel := by
  intro fuel
  induction fuel with
  | zero =>
    intro l p row n hl _ _ hfuel
    omega
  | succ fuel ih =>
    intro l p row n hl hrow hn hfuel
    have hco := hwft.coords l p row n hrow hn
    have hsz := hwft.sizes l row hrow
    have hp : p < b ^ (l + 1) := by
      have := (List.getElem?_eq_some.mp hn).1
      omega
    by_cases hbc : n.best = n.cost
    · refine ⟨[n], ?_, ?_, ?_, ?_⟩
      · simp only [traverse]
        rw [if_pos hbc]
      · simpa using hbc.symm
      · intro m hm
        rw [List.mem_singleton] at hm
        subst hm
        refine ⟨le_of_eq hco.1.symm, ?_, ?_, ?_, row, ?_, ?_⟩
        · rw [hco.1]; exact hl
        · rw [hco.1, hco.2]; exact hp
        · rw [hco.1, hco.2]; simp [Nat.sub_self]
        · rw [hco.1]; exact hrow
        · rw [hco.2]; exact hn
      · intro q hq
        simp only [List.countP_cons, List.countP_nil, decide_eq_true_eq, Nat.zero_add]
        rw [hco.1, hco.2]
        by_cases hqq : q / b ^ (T.length - 1 - l) = p
        · rw [if_pos hqq.symm, if_pos hqq]
        · rw [if_neg (fun hh => hqq hh.symm), if_neg hqq]
    · have hlast : l + 1 < T.length := by
        by_contra hcon
        have hleq : l = T.length - 1 := by omega
        exact hbc (hwft.leaf_best p row n (by rw [← hleq]; exact hrow) hn)
      have hrow2ex : ∃ row2, T[l+1]? = some row2 :=
        ⟨_, List.getElem?_eq_getElem (by omega)⟩
      rcases hrow2ex with ⟨row2, hrow2⟩
      have hstep := hwft.step_best l p row n hlast hrow hn
      have hbest : n.best = childSum b T l p ∧ ¬ (n.cost ≤ childSum b T l p) := by
        by_cases hcle : n.cost ≤ childSum b T l p
        · rw [if_pos hcle] at hstep
          exact absurd hstep hbc
        · rw [if_neg hcle] at hstep
          exact ⟨hstep, hcle⟩
      have hbnd : ∀ k ∈ List.range b, b * p + k < b ^ (l + 1 + 1) := by
        intro k hk
        have hkb : k < b := List.mem_range.mp hk
        calc b * p + k < b * p + b := by omega
          _ = b * (p + 1) := by ring
          _ ≤ b * b ^ (l + 1) := Nat.mul_le_mul_left b hp
          _ = b ^ (l + 1 + 1) := by rw [pow_succ]; ring
      rcases travKids_of_traverse hwft fuel ih (l + 1) (b * p) row2 (List.range b)
        (by omega) hrow2 (by omega) hbnd with ⟨Rs, hks, hsum, hmem, hcount⟩
      refine ⟨Rs, ?_, ?_, ?_, ?_⟩
      · simp only [traverse]
        rw [if_neg hbc, hco.1, hrow2, hco.2]
        exact hks
      · rw [hsum, hbest.1]
        rfl
      · intro m hm
        rcases hmem m hm with ⟨hlev1, hlevd, hidx, ⟨k, hkmem, hdiv⟩, hrow3⟩
        refine ⟨by omega, hlevd, hidx, ?_, hrow3⟩
        have hsplit : b ^ (m.level - (l + 1)) * b = b ^ (m.level - l) := by
          rw [← pow_succ]
          congr 1
          omega
        have hdd : m.index / b ^ (m.level - l) = m.index / b ^ (m.level - (l + 1)) / b := by
          rw [Nat.div_div_eq_div_mul, hsplit]
        rw [hdd, hdiv, Nat.mul_add_div hb0, Nat.div_eq_of_lt (List.mem_range.mp hkmem)]
        omega
      · intro q hq
        rw [hcount q hq, countP_range_between]
        have hD : T.length - 1 - (l + 1) + 1 = T.length - 1 - l := by omega
        have hstep2 : q / b ^ (T.length - 1 - (l + 1)) / b = q / b ^ (T.length - 1 - l) := by
          have h1 := div_div_pow (b := b) q (T.length - 1 - (l + 1)) 1
          rw [pow_one] at h1
          rw [h1, hD]
        have hiff : (b * p ≤ q / b ^ (T.length - 1 - (l + 1)) ∧
              q / b ^ (T.length - 1 - (l + 1)) < b * p + b)
            ↔ (q / b ^ (T.length - 1 - l) = p) := by
          rw [← hstep2]
          exact (div_eq_iff_between hb0 _ p).symm
        simp only [hiff]

lemma wpSeq_spec {b : Nat} {T : List (List (MNode α))}
    (hwft : WFT b T) (hb0 : 0 < b) (hd : 0 < T.length) :
    ∃ R, wpSeq b T = some R ∧
      (R.map MNode.cost).sum = ((List.range b).map (fun k => bestAtPos T 0 k)).sum ∧
      (∀ m ∈ R, m.level < T.length ∧ m.index < b ^ (m.level + 1) ∧
        ∃ row3, T[m.level]? = some row3 ∧ row3[m.index]? = some m) ∧
      (∀ q, q < b ^ T.length →
        R.countP (fun m => decide (m.index = q / b ^ (T.length - 1 - m.level))) = 1) := by
  have hrow0 : ∃ row0, T[0]? = some row0 := ⟨_, List.getElem?_eq_getElem (by omega)⟩
  rcases hrow0 with ⟨row0, hrow0⟩
  have hbnd : ∀ k ∈ List.range b, 0 + k < b ^ (0 + 1) := by
    intro k hk
    have := List.mem_range.mp hk
    simpa using this
  rcases travKids_of_traverse hwft T.length (traverse_sound hwft hb0 T.length)
      0 0 row0 (List.range b) hd hrow0 (by omega) hbnd with
    ⟨R, hks, hsum, hmem, hcount⟩
  refine ⟨R, ?_, ?_, ?_, ?_⟩
  · unfold wpSeq
    rw [hrow0]
    exact hks
  · rw [hsum]
    congr 1
    apply List.map_congr_left
    intro k _
    rw [Nat.zero_add]
  · intro m hm
    rcases hmem m hm with ⟨_, hlt, hidx, _, hrow3⟩
    exact ⟨hlt, hidx, hrow3⟩
  · intro q hq
    rw [hcount q hq, countP_range_between]
    have ha : q / b ^ (T.length - 1 - 0) < b := by
      have hsplit : b * b ^ (T.length - 1) = b ^ T.length := by
        rw [mul_comm, ← pow_succ]
        congr 1
        omega
      have hlt : q < b * b ^ (T.length - 1) := by rw [hsplit]; exact hq
      rw [Nat.sub_zero]
      exact (Nat.div_lt_iff_lt_mul (Nat.pos_pow_of_pos _ hb0)).mpr hlt
    rw [if_pos ⟨Nat.zero_le _, by omega⟩]

/-- Claim C9: on any tree produced by `collect` and processed by `mark`,
running `traverse` on all `b` level-0 roots (with fuel equal to the number
of levels) terminates and never indexes outside the tree: the embedded
`wpSeq`, which returns `none` both when a child access
`Nodes[level+1][b*index+k]` is out of range and when the recursion does
not bottom out, returns `some` result. -/
theorem traverse_terminates_in_bounds (b d : Nat) (costf : α → ℚ)
    (forward : α → List α) (S : α)
    (hb0 : 0 < b) (hb : ∀ C, (forward C).length = b) (hd : 0 < d) :
    ∃ R, wpSeq b (markAll b costf (collect b forward S d)) = some R := by
  have hwft := markAll_collect_WFT (b := b) (d := d) costf S hb0 hb
  have hlen : (markAll b costf (collect b forward S d)).length = d := by
    rw [markAll_length]
    exact (collect_spec hb0 hb S d).1
  rcases wpSeq_spec hwft hb0 (by omega) with ⟨R, hR, _, _, _⟩
  exact ⟨R, hR⟩

/-- Claim C9, witness: the theorem applied to a concrete depth-2 tree with
branching factor 2. -/
theorem traverse_terminates_in_bounds_witness :
    ∃ R, wpSeq 2 (markAll 2 id (collect 2 (fun c => [c, c + 1]) (0 : ℚ) 2)) = some R :=
  traverse_terminates_in_bounds 2 2 id (fun c => [c, c + 1]) 0 (by omega)
    (fun _ => rfl) (by omega)

/-- Claim C3: for every tree built by `collect` and marked by `mark`, the
sum of `best` over the `b` level-0 roots equals the sum of `cost` over the
node sequence produced by traversing all `b` roots (the sequence whose
sorted version is returned by `wp` / `wp2`). -/
theorem root_best_sum_eq_traverse_cost_sum (b d : Nat) (costf : α → ℚ)
    (forward : α → List α) (S : α)
    (hb0 : 0 < b) (hb : ∀ C, (forward C).length = b) (hd : 0 < d)
    (R : List (MNode α))
    (hR : wpSeq b (markAll b costf (collect b forward S d)) = some R) :
    ((List.range b).map
        (fun k => bestAtPos (markAll b costf (collect b forward S d)) 0 k)).sum =
      (R.map MNode.cost).sum := by
  have hwft := markAll_collect_WFT (b := b) (d := d) costf S hb0 hb
  have hlen : (markAll b costf (collect b forward S d)).length = d := by
    rw [markAll_length]
    exact (collect_spec hb0 hb S d).1
  rcases wpSeq_spec hwft hb0 (by omega) with ⟨R2, hR2, hsum, _, _⟩
  rw [hR] at hR2
  rw [Option.some.inj hR2.symm] at hsum
  exact hsum.symm

/-- Claim C3, witness: the theorem applied to a concrete depth-2 tree. -/
theorem root_best_sum_eq_traverse_cost_sum_witness :
    ∃ R, wpSeq 2 (markAll 2 id (collect 2 (fun c => [c, c + 1]) (0 : ℚ) 2)) = some R ∧
      ((List.range 2).map
          (fun k => bestAtPos (markAll 2 id (collect 2 (fun c => [c, c + 1]) (0 : ℚ) 2)) 0 k)).sum =
        (R.map MNode.cost).sum := by
  rcases traverse_terminates_in_bounds_witness with ⟨R, hR⟩
  exact ⟨R, hR, root_best_sum_eq_traverse_cost_sum 2 2 id (fun c => [c, c + 1]) 0
    (by omega) (fun _ => rfl) (by omega) R hR⟩

/-! ### Tree cuts and minimality of the traverse result

A tree cut of the depth-`d` forest is a list of `(level, index)`
coordinates such that every root-to-leaf path meets it exactly once; its
cost is the sum of the `cost` fields of the corresponding tree nodes.
This formalizes section 4.3 of the spec ("minimum-cost antichain cut"). -/

/-- A tree cut of the full `b`-ary forest of depth `d`: valid coordinates,
and every root-to-leaf path (identified by its leaf `q < b^d`; the path
member at level `l` has index `q / b^(d-1-l)`) contains exactly one
element. -/
def isCutF (b d : Nat) (cs : List (Nat × Nat)) : Prop :=
  (∀ c ∈ cs, c.1 < d ∧ c.2 < b ^ (c.1 + 1)) ∧
  (∀ q, q < b ^ d → cs.countP (fun c => decide (c.2 = q / b ^ (d - 1 - c.1))) = 1)

/-- The total cost of a set of coordinates, read off a marked tree. -/
def cutCostF (T : List (List (MNode α))) (cs : List (Nat × Nat)) : ℚ :=
  (cs.map (fun c => costAtPos T c.1 c.2)).sum

lemma eq_of_countP_eq_one {γ : Type} (pred : γ → Bool) (L : List γ)
    (h1 : L.countP pred = 1) :
    ∀ x ∈ L, ∀ y ∈ L, pred x = true → pred y = true → x = y := by
  intro x hx y hy hpx hpy
  have hfx : x ∈ L.filter pred := List.mem_filter.mpr ⟨hx, hpx⟩
  have hfy : y ∈ L.filter pred := List.mem_filter.mpr ⟨hy, hpy⟩
  have hlen : (L.filter pred).length = 1 := by
    rw [← List.countP_eq_length_filter]
    exact h1
  rcases List.length_eq_one.mp hlen with ⟨a, ha⟩
  rw [ha, List.mem_singleton] at hfx hfy
  rw [hfx, hfy]

lemma best_le_cost_at {b : Nat} {T : List (List (MNode α))} (hwft : WFT b T)
    {l p : Nat} {row : List (MNode α)} {n : MNode α}
    (hrow : T[l]? = some row) (hn : row[p]? = some n) :
    n.best ≤ n.cost ∧ (l + 1 < T.length → n.best ≤ childSum b T l p) := by
  have hl : l < T.length := (List.getElem?_eq_some.mp hrow).1
  by_cases hc : l + 1 < T.length
  · have hstep := hwft.step_best l p row n hc hrow hn
    constructor
    · rw [hstep]
      by_cases hle : n.cost ≤ childSum b T l p
      · rw [if_pos hle]
      · rw [if_neg hle]
        exact le_of_lt (lt_of_not_le hle)
    · intro _
      rw [hstep]
      by_cases hle : n.cost ≤ childSum b T l p
      · rw [if_pos hle]; exact hle
      · rw [if_neg hle]
  · have hleq : l = T.length - 1 := by omega
    have := hwft.leaf_best p row n (by rw [← hleq]; exact hrow) hn
    exact ⟨le_of_eq this, fun h => absurd h hc⟩

lemma list_sum_map_add {γ : Type} (L : List γ) (f g : γ → ℚ) :
    (L.map (fun x => f x + g x)).sum = (L.map f).sum + (L.map g).sum := by
  induction L with
  | nil => simp
  | cons x L ih =>
    simp only [List.map_cons, List.sum_cons, ih]
    ring

lemma sum_range_indicator (b jbase a : Nat) (v : ℚ) :
    ((List.range b).map (fun k => if a = jbase + k then v else 0)).sum =
      if jbase ≤ a ∧ a < jbase + b then v else 0 := by
  induction b with
  | zero =>
    simp only [List.range_zero, List.map_nil, List.sum_nil]
    rw [if_neg (by omega)]
  | succ b ih =>
    rw [List.range_succ, List.map_append, List.sum_append, ih]
    simp only [List.map_cons, List.map_nil, List.sum_cons, List.sum_nil, add_zero]
    by_cases h1 : a = jbase + b
    · rw [if_pos h1, if_neg (by omega), if_pos (by omega), zero_add]
    · rw [if_neg h1]
      by_cases h2 : jbase ≤ a ∧ a < jbase + b
      · rw [if_pos h2, if_pos (by omega), add_zero]
      · rw [if_neg h2, if_neg (by omega), add_zero]

lemma sum_filter_classes {γ : Type} (g : γ → Nat) (f : γ → ℚ) (jbase b : Nat) :
    ∀ (L : List γ), (∀ x ∈ L, jbase ≤ g x ∧ g x < jbase + b) →
      ((List.range b).map
          (fun k => ((L.filter (fun x => decide (g x = jbase + k))).map f).sum)).sum
        = (L.map f).sum := by
  intro L
  induction L with
  | nil => intro _; simp
  | cons x L ih =>
    intro hbound
    have hx := hbound x (List.mem_cons_self x L)
    have hsum : ∀ k, (((x :: L).filter (fun y => decide (g y = jbase + k))).map f).sum =
        (if g x = jbase + k then f x else 0) +
          ((L.filter (fun y => decide (g y = jbase + k))).map f).sum := by
      intro k
      rw [List.filter_cons]
      by_cases h : g x = jbase + k
      · rw [if_pos (by simpa using h), if_pos h]
        simp
      · rw [if_neg (by simpa using h), if_neg h]
        simp
    have hcongr : ((List.range b).map
          (fun k => (((x :: L).filter (fun y => decide (g y = jbase + k))).map f).sum)).sum
        = ((List.range b).map (fun k => (if g x = jbase + k then f x else 0) +
            ((L.filter (fun y => decide (g y = jbase + k))).map f).sum)).sum := by
      congr 1
      exact List.map_congr_left (fun k _ => hsum k)
    rw [hcongr, list_sum_map_add, sum_range_indicator, if_pos hx,
      ih (fun y hy => hbound y (List.mem_cons_of_mem x hy))]
    simp

lemma cut_min_subtree {b : Nat} {T : List (List (MNode α))}
    (hwft : WFT b T) (hb0 : 0 < b) :
    ∀ (r : Nat), ∀ (l p : Nat) (cs : List (Nat × Nat)), l < T.length →
      T.length - l ≤ r → p < b ^ (l + 1) →
      (∀ c ∈ cs, l ≤ c.1 ∧ c.1 < T.length ∧ c.2 < b ^ (c.1 + 1) ∧
        c.2 / b ^ (c.1 - l) = p) →
      (∀ q, q < b ^ T.length → q / b ^ (T.length - 1 - l) = p →
        cs.countP (fun c => decide (c.2 = q / b ^ (T.length - 1 - c.1))) = 1) →
      bestAtPos T l p ≤ cutCostF T cs := by
  intro r
  induction r with
  | zero => intro l p cs hl hr; omega
  | succ r ih =>
    intro l p cs hl hr hp hsub hcnt
    have hrowex : ∃ row, T[l]? = some row := ⟨_, List.getElem?_eq_getElem hl⟩
    rcases hrowex with ⟨row, hrow⟩
    have hsz := hwft.sizes l row hrow
    have hnodeex : ∃ n, row[p]? = some n := ⟨_, List.getElem?_eq_getElem (by omega)⟩
    rcases hnodeex with ⟨n, hn⟩
    have hbest : bestAtPos T l p = n.best := by
      unfold bestAtPos
      rw [hrow]
      show ((row[p]?).map _).getD 0 = n.best
      rw [hn]
      rfl
    have hcost : costAtPos T l p = n.cost := by
      unfold costAtPos
      rw [hrow]
      show ((row[p]?).map _).getD 0 = n.cost
      rw [hn]
      rfl
    have hq0 : p * b ^ (T.length - 1 - l) < b ^ T.length := by
      calc p * b ^ (T.length - 1 - l) < b ^ (l + 1) * b ^ (T.length - 1 - l) :=
          (Nat.mul_lt_mul_right (Nat.pos_pow_of_pos _ hb0)).mpr hp
        _ = b ^ T.length := by rw [← pow_add]; congr 1; omega
    have hq0p : p * b ^ (T.length - 1 - l) / b ^ (T.length - 1 - l) = p :=
      Nat.mul_div_cancel p (Nat.pos_pow_of_pos _ hb0)
    by_cases hmem : (l, p) ∈ cs
    · -- the node itself is in the cut: then the cut is exactly [(l,p)]
      have hallp : ∀ c ∈ cs, c = (l, p) := by
        intro c hc
        rcases hsub c hc with ⟨hcl, hcd, hcb, hcp⟩
        have hqc : c.2 * b ^ (T.length - 1 - c.1) < b ^ T.length := by
          calc c.2 * b ^ (T.length - 1 - c.1) < b ^ (c.1 + 1) * b ^ (T.length - 1 - c.1) :=
              (Nat.mul_lt_mul_right (Nat.pos_pow_of_pos _ hb0)).mpr hcb
            _ = b ^ T.length := by rw [← pow_add]; congr 1; omega
        have hqc1 : c.2 * b ^ (T.length - 1 - c.1) / b ^ (T.length - 1 - c.1) = c.2 :=
          Nat.mul_div_cancel c.2 (Nat.pos_pow_of_pos _ hb0)
        have hqup : c.2 * b ^ (T.length - 1 - c.1) / b ^ (T.length - 1 - l) = p := by
          have hdecomp : T.length - 1 - l = (T.length - 1 - c.1) + (c.1 - l) := by omega
          rw [hdecomp, ← div_div_pow, hqc1, hcp]
        have hcount := hcnt _ hqc hqup
        exact eq_of_countP_eq_one _ cs hcount c hc (l, p) hmem
          (by rw [decide_eq_true_eq]; exact hqc1.symm)
          (by rw [decide_eq_true_eq]; exact hqup.symm)
      have hcnt0 := hcnt _ hq0 hq0p
      have hall_pred : ∀ c ∈ cs,
          (fun c : Nat × Nat =>
            decide (c.2 = p * b ^ (T.length - 1 - l) / b ^ (T.length - 1 - c.1))) c = true := by
        intro c hc
        rw [hallp c hc, decide_eq_true_eq]
        exact hq0p.symm
      have hlen1 : cs.length = 1 := by
        have hfull := List.countP_eq_length.mpr hall_pred
        omega
      rcases List.length_eq_one.mp hlen1 with ⟨c0, hc0⟩
      have hc0eq : c0 = (l, p) := hallp c0 (by rw [hc0]; exact List.mem_singleton_self c0)
      rw [hc0, hc0eq]
      unfold cutCostF
      simp only [List.map_cons, List.map_nil, List.sum_cons, List.sum_nil, add_zero]
      rw [hbest]
      show n.best ≤ costAtPos T l p
      rw [hcost]
      exact (best_le_cost_at hwft hrow hn).1
    · by_cases hleaf : l + 1 < T.length
      · -- interior node not in the cut: split the cut by child subtrees
        have hlev1 : ∀ c ∈ cs, l + 1 ≤ c.1 := by
          intro c hc
          rcases hsub c hc with ⟨hcl, hcd, hcb, hcp⟩
          by_contra hcon
          have hc1 : c.1 = l := by omega
          have hc2 : c.2 = p := by
            rw [hc1, Nat.sub_self, pow_zero, Nat.div_one] at hcp
            exact hcp
          apply hmem
          have : c = (l, p) := by
            obtain ⟨a1, a2⟩ := c
            simp only [Prod.mk.injEq]
            exact ⟨hc1, hc2⟩
          rw [← this]
          exact hc
        have hclass : ∀ c ∈ cs, b * p ≤ c.2 / b ^ (c.1 - (l + 1)) ∧
            c.2 / b ^ (c.1 - (l + 1)) < b * p + b := by
          intro c hc
          rcases hsub c hc with ⟨hcl, hcd, hcb, hcp⟩
          have h1 := hlev1 c hc
          have hsplit : b ^ (c.1 - (l + 1)) * b = b ^ (c.1 - l) := by
            rw [← pow_succ]
            congr 1
            omega
          have hdd : c.2 / b ^ (c.1 - l) = c.2 / b ^ (c.1 - (l + 1)) / b := by
            rw [Nat.div_div_eq_div_mul, hsplit]
          rw [hdd] at hcp
          exact (div_eq_iff_between hb0 _ p).mp hcp
        have hperk : ∀ k ∈ List.range b, bestAtPos T (l + 1) (b * p + k) ≤
            cutCostF T (cs.filter
              (fun c => decide (c.2 / b ^ (c.1 - (l + 1)) = b * p + k))) := by
          intro k hkmem
          have hk : k < b := List.mem_range.mp hkmem
          have hbnd : b * p + k < b ^ (l + 1 + 1) := by
            calc b * p + k < b * p + b := by omega
              _ = b * (p + 1) := by ring
              _ ≤ b * b ^ (l + 1) := Nat.mul_le_mul_left b hp
              _ = b ^ (l + 1 + 1) := by rw [pow_succ]; ring
          apply ih (l + 1) (b * p + k) _ (by omega) (by omega) hbnd
          · intro c hcf
            rcases List.mem_filter.mp hcf with ⟨hc, hpred⟩
            rw [decide_eq_true_eq] at hpred
            rcases hsub c hc with ⟨hcl, hcd, hcb, _⟩
            exact ⟨hlev1 c hc, hcd, hcb, hpred⟩
          · intro q hq hqk
            rw [List.countP_filter]
            have hqp : q / b ^ (T.length - 1 - l) = p := by
              have hdecomp : T.length - 1 - l = (T.length - 1 - (l + 1)) + 1 := by omega
              have hdd := div_div_pow (b := b) q (T.length - 1 - (l + 1)) 1
              rw [pow_one] at hdd
              rw [hdecomp, ← hdd, hqk, Nat.mul_add_div hb0, Nat.div_eq_of_lt hk]
              omega
            have hcq := hcnt q hq hqp
            refine Eq.trans (List.countP_congr ?_) hcq
            intro c hc
            simp only [Bool.and_eq_true, decide_eq_true_eq]
            rcases hsub c hc with ⟨hcl, hcd, hcb, hcp⟩
            have h1 := hlev1 c hc
            constructor
            · rintro ⟨hon, _⟩
              exact hon
            · intro hon
              refine ⟨hon, ?_⟩
              rw [hon]
              have hdecomp : T.length - 1 - (l + 1) =
                  (T.length - 1 - c.1) + (c.1 - (l + 1)) := by omega
              rw [← hqk, hdecomp, ← div_div_pow]
        rw [hbest]
        calc n.best ≤ childSum b T l p := (best_le_cost_at hwft hrow hn).2 hleaf
          _ ≤ ((List.range b).map (fun k => cutCostF T (cs.filter
                (fun c => decide (c.2 / b ^ (c.1 - (l + 1)) = b * p + k))))).sum :=
            List.sum_le_sum hperk
          _ = cutCostF T cs := by
            unfold cutCostF
            exact sum_filter_classes (fun c => c.2 / b ^ (c.1 - (l + 1)))
              (fun c => costAtPos T c.1 c.2) (b * p) b cs hclass
      · -- deepest-level node not in the cut: no element can cover its leaf
        exfalso
        have hcnt0 := hcnt _ hq0 hq0p
        have hex : ∃ c ∈ cs,
            (fun c : Nat × Nat =>
              decide (c.2 = p * b ^ (T.length - 1 - l) / b ^ (T.length - 1 - c.1))) c
              = true :=
          List.countP_pos_iff.mp (by omega)
        rcases hex with ⟨c, hc, hpred⟩
        rw [decide_eq_true_eq] at hpred
        rcases hsub c hc with ⟨hcl, hcd, hcb, hcp⟩
        have hc1 : c.1 = l := by omega
        rw [hc1, hq0p] at hpred
        apply hmem
        have : c = (l, p) := by
          obtain ⟨a1, a2⟩ := c
          simp only [Prod.mk.injEq]
          exact ⟨hc1, hpred⟩
        rw [← this]
        exact hc

set_option maxHeartbeats 1000000 in
/-- Claim C1: for every tree produced by `collect` and marked by `mark`,
the node sequence returned by running `traverse` on all `b` level-0 roots
is a tree cut — every root-to-leaf path of the full decomposition tree
contains exactly one node of the result — and its total cost is minimal
among all tree cuts of the full decomposition. -/
theorem traverse_tree_cut_minimal (b d : Nat) (costf : α → ℚ) (forward : α → List α)
    (S : α) (hb0 : 0 < b) (hb : ∀ C, (forward C).length = b) (hd : 0 < d)
    (R : List (MNode α))
    (hR : wpSeq b (markAll b costf (collect b forward S d)) = some R) :
    (∀ q, q < b ^ d →
      R.countP (fun m => decide (m.index = q / b ^ (d - 1 - m.level))) = 1) ∧
    (∀ cs, isCutF b d cs →
      (R.map MNode.cost).sum ≤ cutCostF (markAll b costf (collect b forward S d)) cs) := by
  have hwft := markAll_collect_WFT (b := b) (d := d) costf S hb0 hb
  have hlen : (markAll b costf (collect b forward S d)).length = d := by
    rw [markAll_length]
    exact (collect_spec hb0 hb S d).1
  rcases wpSeq_spec hwft hb0 (by omega) with ⟨R2, hR2, hsum, hmem2, hcnt2⟩
  rw [hR] at hR2
  have hReq : R2 = R := (Option.some.inj hR2).symm
  subst hReq
  constructor
  · intro q hq
    have h := hcnt2 q (by rw [hlen]; exact hq)
    rw [hlen] at h
    exact h
  · intro cs hcut
    have hcutT : (∀ c ∈ cs, c.1 < (markAll b costf (collect b forward S d)).length ∧
        c.2 < b ^ (c.1 + 1)) ∧
        (∀ q, q < b ^ (markAll b costf (collect b forward S d)).length →
          cs.countP (fun c => decide (c.2 =
            q / b ^ ((markAll b costf (collect b forward S d)).length - 1 - c.1))) = 1) := by
      rw [hlen]
      exact ⟨fun c hc => hcut.1 c hc, hcut.2⟩
    have hclassb : ∀ c ∈ cs, (0:Nat) ≤ c.2 / b ^ c.1 ∧ c.2 / b ^ c.1 < 0 + b := by
      intro c hc
      rcases hcutT.1 c hc with ⟨_, hc2⟩
      refine ⟨Nat.zero_le _, ?_⟩
      have hpow : b ^ (c.1 + 1) = b * b ^ c.1 := by rw [pow_succ]; ring
      have hlt : c.2 < b * b ^ c.1 := by omega
      have := (Nat.div_lt_iff_lt_mul (Nat.pos_pow_of_pos _ hb0)).mpr hlt
      omega
    have hperk : ∀ k ∈ List.range b,
        bestAtPos (markAll b costf (collect b forward S d)) 0 k ≤
          cutCostF (markAll b costf (collect b forward S d))
            (cs.filter (fun c => decide (c.2 / b ^ c.1 = 0 + k))) := by
      intro k hkmem
      have hk : k < b := List.mem_range.mp hkmem
      apply cut_min_subtree hwft hb0 (markAll b costf (collect b forward S d)).length
        0 k _ (by omega) (by omega) (by simpa using hk)
      · intro c hcf
        rcases List.mem_filter.mp hcf with ⟨hc, hpred⟩
        rw [decide_eq_true_eq] at hpred
        rcases hcutT.1 c hc with ⟨hc1, hc2⟩
        refine ⟨Nat.zero_le _, hc1, hc2, ?_⟩
        rw [Nat.sub_zero]
        omega
      · intro q hq hqk
        rw [List.countP_filter]
        refine Eq.trans (List.countP_congr ?_) (hcutT.2 q hq)
        intro c hc
        simp only [Bool.and_eq_true, decide_eq_true_eq]
        rcases hcutT.1 c hc with ⟨hc1, hc2⟩
        constructor
        · rintro ⟨hon, _⟩
          exact hon
        · intro hon
          refine ⟨hon, ?_⟩
          rw [hon]
          have hdecomp :
              (markAll b costf (collect b forward S d)).length - 1 =
                ((markAll b costf (collect b forward S d)).length - 1 - c.1) + c.1 := by
            omega
          have hdd := div_div_pow (b := b) q
            ((markAll b costf (collect b forward S d)).length - 1 - c.1) c.1
          rw [hdd, ← hdecomp]
          rw [Nat.sub_zero] at hqk
          omega
    rw [hsum]
    calc ((List.range b).map
          (fun k => bestAtPos (markAll b costf (collect b forward S d)) 0 k)).sum
        ≤ ((List.range b).map (fun k => cutCostF (markAll b costf (collect b forward S d))
            (cs.filter (fun c => decide (c.2 / b ^ c.1 = 0 + k))))).sum :=
          List.sum_le_sum hperk
      _ = cutCostF (markAll b costf (collect b forward S d)) cs := by
          unfold cutCostF
          exact sum_filter_classes (fun c => c.2 / b ^ c.1)
            (fun c => costAtPos (markAll b costf (collect b forward S d)) c.1 c.2)
            0 b cs hclassb

/-- Claim C1, witness: the theorem applied to a concrete depth-1 tree with
branching factor 2, checking the exactly-once property on the path of
leaf 0. -/
theorem traverse_tree_cut_minimal_witness :
    ([⟨0, 0, 0, 0, 0⟩, ⟨0, 0, 1, 0, 0⟩] : List (MNode ℚ)).countP
        (fun m => decide (m.index = 0 / 2 ^ (1 - 1 - m.level))) = 1 := by
  have h := traverse_tree_cut_minimal 2 1 (fun _ => 0) (fun c => [c, c]) (0 : ℚ)
    (by omega) (fun _ => rfl) (by omega) [⟨0, 0, 0, 0, 0⟩, ⟨0, 0, 1, 0, 0⟩] (by decide)
  exact h.1 0 (by omega)

/-! ### Synthesizer: `iwp` (binarytree.py lines 90-99) and `iwp2`
(quadtree.py lines 129-164)

Both synthesizers repeatedly take the `b` smallest nodes of the current
collection under the "deepest level first, ties by ascending index" order
(`iwp` re-sorts with `node.compare_high_level_first` each iteration,
`iwp2` pops a binary heap of nodes four times; both orders are determined
by node.py, which is not part of src/ and is modelled from the spec), and
replace them by their merged parent.  Levels are integers because the
final merge of the `b` level-0 nodes creates the node
`Node(S, Node1.level - 1, Node1.index / b)` at level `-1`. -/

/-- Modelled from the spec: a node as consumed by the synthesizer
(node.py is not part of src/). -/
structure SNode (α : Type) where
  C : α
  level : Int
  index : Nat
deriving DecidableEq

/-- Modelled from the spec: the priority order of the synthesizer —
deepest level first, ties broken by ascending index (spec section 4.4;
the comparator `node.compare_high_level_first` and the heap order of
node.py are not part of src/). -/
def nodeBefore (n m : SNode α) : Prop :=
  m.level < n.level ∨ (n.level = m.level ∧ n.index ≤ m.index)

instance : DecidableRel (@nodeBefore α) := fun n m => by
  unfold nodeBefore
  infer_instance

instance : IsTotal (SNode α) nodeBefore :=
  ⟨fun n m => by
    unfold nodeBefore
    rcases lt_trichotomy n.level m.level with h | h | h
    · exact Or.inr (Or.inl h)
    · rcases Nat.le_total n.index m.index with h2 | h2
      · exact Or.inl (Or.inr ⟨h, h2⟩)
      · exact Or.inr (Or.inr ⟨h.symm, h2⟩)
    · exact Or.inl (Or.inl h)⟩

instance : IsTrans (SNode α) nodeBefore :=
  ⟨fun x y z hxy hyz => by
    unfold nodeBefore at hxy hyz ⊢
    rcases hxy with h1 | ⟨h1, h1i⟩ <;> rcases hyz with h2 | ⟨h2, h2i⟩
    · exact Or.inl (lt_trans h2 h1)
    · exact Or.inl (h2 ▸ h1)
    · exact Or.inl (by rw [h1]; exact h2)
    · exact Or.inr ⟨h1.trans h2, h1i.trans h2i⟩⟩

/-- The nodes ordered deepest level first, ties by ascending index: the
state of `Nodes` after `sorted(Nodes, cmp=node.compare_high_level_first)`
in `iwp`, and the pop order of the heap in `iwp2`. -/
def sortNodes (ns : List (SNode α)) : List (SNode α) :=
  List.insertionSort nodeBefore ns

/-- One iteration of the synthesizer loop: take the first `b` nodes of the
sorted collection, merge their arrays with the inverse transform into the
node `(level-1, index/b)`, and keep the rest; `none` models the
IndexError Python raises when fewer than `b` nodes remain. -/
def iwpStep (b : Nat) (inverse : List α → α) (nodes : List (SNode α)) :
    Option (List (SNode α)) :=
  match sortNodes nodes with
  | [] => none
  | n1 :: rest1 =>
    if b ≤ (n1 :: rest1).length then
      some ((n1 :: rest1).drop b ++
        [⟨inverse (((n1 :: rest1).take b).map SNode.C), n1.level - 1, n1.index / b⟩])
    else none

/-- The loop of `iwp` / `iwp2`: repeat `iwpStep` until exactly one node
remains and return its coefficient array (fuel-indexed). -/
def iwpLoop (b : Nat) (inverse : List α → α) : Nat → List (SNode α) → Option α
  | 0, _ => none
  | fuel + 1, nodes =>
    if nodes.length = 1 then nodes.head?.map SNode.C
    else (iwpStep b inverse nodes).bind (iwpLoop b inverse fuel)

/-- The rooted-tree coordinate of a synthesizer node: depth
`(level+1).toNat` (so the virtual root standing for the original signal
has depth 0 and the level-`l` tree nodes have depth `l+1`) and the index. -/
def coordOf (n : SNode α) : Nat × Nat := ((n.level + 1).toNat, n.index)

/-- A tree cut of the depth-`d` tree rooted at the virtual root: valid
rooted coordinates, and every root-to-leaf path (identified by its leaf
`q < b^d`; the path member at depth `λ` has index `q / b^(d-λ)`) contains
exactly one element. -/
def isCutR (b d : Nat) (cs : List (Nat × Nat)) : Prop :=
  (∀ c ∈ cs, c.1 ≤ d ∧ c.2 < b ^ c.1) ∧
  (∀ q, q < b ^ d → cs.countP (fun c => decide (c.2 = q / b ^ (d - c.1))) = 1)

/-! ### Error reporting in the synthesizers (claim C8)

`iwpE` / `iwp2E` re-embed the two loops with a fallible inverse transform
(`none` = the ValueError that `pywt.idwt` / `pywt.idwt2` raise on a shape
mismatch).  The escaping error carries the list of `(level, index, shape)`
diagnostics printed before the error propagates: `iwp2` (quadtree.py lines
149-160) prints the four popped nodes and re-raises, while `iwp`
(binarytree.py lines 90-99) has no try/except at all, so nothing is
reported. -/

/-- Error outcomes of the synthesizer loops: `indexError` models popping
from fewer nodes than needed, `noFuel` is the fuel bound of the
embedding, and `valueError rep` models an escaping ValueError carrying
the diagnostics reported before it propagates. -/
inductive SynthErr (σ : Type) where
  | indexError : SynthErr σ
  | noFuel : SynthErr σ
  | valueError : List (Int × Nat × σ) → SynthErr σ
deriving DecidableEq

/-- Embeds `iwp` of binarytree.py (b = 2) with a fallible inverse: there
is no try/except around `pywt.idwt`, so a ValueError propagates with no
diagnostics reported. -/
def iwpE {σ : Type} (inverse2 : α → α → Option α) (shape : α → σ) :
    Nat → List (SNode α) → Except (SynthErr σ) α
  | 0, _ => .error .noFuel
  | fuel + 1, nodes =>
    if nodes.length = 1 then
      match nodes with
      | n :: _ => .ok n.C
      | [] => .error .indexError
    else
      match sortNodes nodes with
      | n1 :: n2 :: rest =>
        match inverse2 n1.C n2.C with
        | some S => iwpE inverse2 shape fuel (rest ++ [⟨S, n1.level - 1, n1.index / 2⟩])
        | none => .error (.valueError [])
      | _ => .error .indexError

/-- Embeds `iwp2` of quadtree.py (b = 4) with a fallible inverse: the
`pywt.idwt2` call sits in `try/except ValueError`, which prints the
`(level, index, shape)` of the four popped nodes and re-raises. -/
def iwp2E {σ : Type} (inverse4 : α → α → α → α → Option α) (shape : α → σ) :
    Nat → List (SNode α) → Except (SynthErr σ) α
  | 0, _ => .error .noFuel
  | fuel + 1, nodes =>
    if nodes.length = 1 then
      match nodes with
      | n :: _ => .ok n.C
      | [] => .error .indexError
    else
      match sortNodes nodes with
      | n1 :: n2 :: n3 :: n4 :: rest =>
        match inverse4 n1.C n2.C n3.C n4.C with
        | some S => iwp2E inverse4 shape fuel (rest ++ [⟨S, n1.level - 1, n1.index / 4⟩])
        | none => .error (.valueError
            [(n1.level, n1.index, shape n1.C), (n2.level, n2.index, shape n2.C),
             (n3.level, n3.index, shape n3.C), (n4.level, n4.index, shape n4.C)])
      | _ => .error .indexError

lemma iwpE_valueError_empty {σ : Type} (inverse2 : α → α → Option α) (shape : α → σ) :
    ∀ (fuel : Nat) (ns : List (SNode α)) (rep : List (Int × Nat × σ)),
      iwpE inverse2 shape fuel ns = .error (.valueError rep) → rep = [] := by
  intro fuel
  induction fuel with
  | zero =>
    intro ns rep h
    simp only [iwpE] at h
    injection h with h2
    cases h2
  | succ fuel ih =>
    intro ns rep h
    simp only [iwpE] at h
    by_cases h1 : ns.length = 1
    · rw [if_pos h1] at h
      cases ns with
      | nil => simp at h
      | cons n rest => simp at h
    · rw [if_neg h1] at h
      cases hs : sortNodes ns with
      | nil => rw [hs] at h; simp at h
      | cons n1 t1 =>
        cases t1 with
        | nil => rw [hs] at h; simp at h
        | cons n2 rest =>
          rw [hs] at h
          have h2 : (match inverse2 n1.C n2.C with
              | some S => iwpE inverse2 shape fuel
                  (rest ++ [⟨S, n1.level - 1, n1.index / 2⟩])
              | none => Except.error (SynthErr.valueError [])) =
              Except.error (SynthErr.valueError rep) := h
          cases hinv : inverse2 n1.C n2.C with
          | some S =>
            rw [hinv] at h2
            exact ih _ rep h2
          | none =>
            rw [hinv] at h2
            injection h2 with h3
            injection h3 with h4
            exact h4.symm

lemma iwp2E_valueError_reports {σ : Type} (inverse4 : α → α → α → α → Option α)
    (shape : α → σ) :
    ∀ (fuel : Nat) (ns : List (SNode α)) (rep : List (Int × Nat × σ)),
      iwp2E inverse4 shape fuel ns = .error (.valueError rep) →
      ∃ n1 n2 n3 n4 : SNode α,
        rep = [(n1.level, n1.index, shape n1.C), (n2.level, n2.index, shape n2.C),
               (n3.level, n3.index, shape n3.C), (n4.level, n4.index, shape n4.C)] ∧
        inverse4 n1.C n2.C n3.C n4.C = none := by
  intro fuel
  induction fuel with
  | zero =>
    intro ns rep h
    simp only [iwp2E] at h
    injection h with h2
    cases h2
  | succ fuel ih =>
    intro ns rep h
    simp only [iwp2E] at h
    by_cases h1 : ns.length = 1
    · rw [if_pos h1] at h
      cases ns with
      | nil => simp at h
      | cons n rest => simp at h
    · rw [if_neg h1] at h
      cases hs : sortNodes ns with
      | nil => rw [hs] at h; simp at h
      | cons n1 t1 =>
        cases t1 with
        | nil => rw [hs] at h; simp at h
        | cons n2 t2 =>
          cases t2 with
          | nil => rw [hs] at h; simp at h
          | cons n3 t3 =>
            cases t3 with
            | nil => rw [hs] at h; simp at h
            | cons n4 rest =>
              rw [hs] at h
              have h2 : (match inverse4 n1.C n2.C n3.C n4.C with
                  | some S => iwp2E inverse4 shape fuel
                      (rest ++ [⟨S, n1.level - 1, n1.index / 4⟩])
                  | none => Except.error (SynthErr.valueError
                      [(n1.level, n1.index, shape n1.C), (n2.level, n2.index, shape n2.C),
                       (n3.level, n3.index, shape n3.C), (n4.level, n4.index, shape n4.C)])) =
                  Except.error (SynthErr.valueError rep) := h
              cases hinv : inverse4 n1.C n2.C n3.C n4.C with
              | some S =>
                rw [hinv] at h2
                exact ih _ rep h2
              | none =>
                rw [hinv] at h2
                injection h2 with h3
                injection h3 with h4
                exact ⟨n1, n2, n3, n4, h4.symm, hinv⟩

/-- Claim C8, counterexample: the claim asserts that both synthesizers
report the level/index/shape of the nodes involved in a failed merge, but
`iwp` (binarytree.py) has no try/except around `pywt.idwt`: on the
concrete two-node input below with an always-failing inverse, the error
escapes carrying no diagnostics at all. -/
theorem iwp_reports_nothing_counterexample :
    ¬ ∃ rep : List (Int × Nat × Nat), rep ≠ [] ∧
      iwpE (fun _ _ => (none : Option ℚ)) (fun _ => (0 : Nat)) 2
        [⟨0, 0, 0⟩, ⟨1, 0, 1⟩] = .error (.valueError rep) := by
  rintro ⟨rep, hne, heq⟩
  have hcomp : iwpE (fun _ _ => (none : Option ℚ)) (fun _ => (0 : Nat)) 2
      [⟨0, 0, 0⟩, ⟨1, 0, 1⟩] = .error (.valueError []) := by rfl
  rw [hcomp] at heq
  injection heq with h2
  injection h2 with h3
  exact hne h3.symm

/-- Claim C8 (amended): when the inverse transform fails inside `iwp2`
(b = 4), the escaping error carries the level, index and shape of each of
the four nodes involved in the failed merge; `iwp` (b = 2) has no handler
and lets the error propagate without reporting anything. -/
theorem synth_error_reporting {σ : Type} (inverse2 : α → α → Option α)
    (inverse4 : α → α → α → α → Option α) (shape : α → σ) :
    (∀ (fuel : Nat) (ns : List (SNode α)) (rep : List (Int × Nat × σ)),
      iwp2E inverse4 shape fuel ns = .error (.valueError rep) →
      ∃ n1 n2 n3 n4 : SNode α,
        rep = [(n1.level, n1.index, shape n1.C), (n2.level, n2.index, shape n2.C),
               (n3.level, n3.index, shape n3.C), (n4.level, n4.index, shape n4.C)] ∧
        inverse4 n1.C n2.C n3.C n4.C = none) ∧
    (∀ (fuel : Nat) (ns : List (SNode α)) (rep : List (Int × Nat × σ)),
      iwpE inverse2 shape fuel ns = .error (.valueError rep) → rep = []) :=
  ⟨iwp2E_valueError_reports inverse4 shape, iwpE_valueError_empty inverse2 shape⟩

/-- Claim C8, witness: the amended theorem applied to a concrete failing
run of `iwp2` on four level-0 nodes. -/
theorem synth_error_reporting_witness :
    ∃ n1 n2 n3 n4 : SNode ℚ,
      ([((0:Int), (0:Nat), (0:Nat)), (0, 1, 0), (0, 2, 0), (0, 3, 0)] :
          List (Int × Nat × Nat)) =
        [(n1.level, n1.index, (fun _ => (0:Nat)) n1.C),
         (n2.level, n2.index, (fun _ => (0:Nat)) n2.C),
         (n3.level, n3.index, (fun _ => (0:Nat)) n3.C),
         (n4.level, n4.index, (fun _ => (0:Nat)) n4.C)] ∧
      (fun _ _ _ _ => (none : Option ℚ)) n1.C n2.C n3.C n4.C = none := by
  have h := (synth_error_reporting (fun _ _ => (none : Option ℚ))
    (fun _ _ _ _ => (none : Option ℚ)) (fun _ => (0 : Nat))).1 2
    [⟨0, 0, 0⟩, ⟨1, 0, 1⟩, ⟨2, 0, 2⟩, ⟨3, 0, 3⟩]
    [(0, 0, 0), (0, 1, 0), (0, 2, 0), (0, 3, 0)] (by rfl)
  exact h

/-! ### The synthesizer merges complete sibling groups (claims C5, C10) -/

lemma sortNodes_perm (ns : List (SNode α)) : (sortNodes ns).Perm ns :=
  List.perm_insertionSort nodeBefore ns

lemma sortNodes_sorted (ns : List (SNode α)) : (sortNodes ns).Sorted nodeBefore :=
  List.sorted_insertionSort nodeBefore ns

lemma sum_map_one {γ : Type} : ∀ (L : List γ), (L.map (fun _ => (1:Nat))).sum = L.length := by
  intro L
  induction L with
  | nil => rfl
  | cons x L ih => simp [ih]; omega

lemma list_sum_map_add_nat {γ : Type} (L : List γ) (f g : γ → Nat) :
    (L.map (fun x => f x + g x)).sum = (L.map f).sum + (L.map g).sum := by
  induction L with
  | nil => rfl
  | cons x L ih =>
    simp only [List.map_cons, List.sum_cons, ih]
    omega

lemma sum_range_pair_indicator (Λ mb : Nat) (x : Nat × Nat) :
    ∀ b : Nat, ((List.range b).map (fun j => if x = (Λ, mb + j) then (1:Nat) else 0)).sum =
      if x.1 = Λ ∧ mb ≤ x.2 ∧ x.2 < mb + b then 1 else 0 := by
  intro b
  induction b with
  | zero =>
    simp only [List.range_zero, List.map_nil, List.sum_nil]
    rw [if_neg (by omega)]
  | succ b ih =>
    rw [List.range_succ, List.map_append, List.sum_append, ih]
    simp only [List.map_cons, List.map_nil, List.sum_cons, List.sum_nil, add_zero]
    obtain ⟨x1, x2⟩ := x
    simp only [Prod.mk.injEq]
    by_cases h1 : x1 = Λ ∧ x2 = mb + b
    · rw [if_pos h1, if_neg (by omega), if_pos (by omega)]
    · rw [if_neg h1]
      by_cases h2 : x1 = Λ ∧ mb ≤ x2 ∧ x2 < mb + b
      · rw [if_pos h2, if_pos (by omega), add_zero]
      · rw [if_neg h2, if_neg (by omega), add_zero]

lemma countP_sib_eq_sum (b Λ mb : Nat) :
    ∀ L : List (Nat × Nat),
      L.countP (fun c => decide (c.1 = Λ ∧ mb ≤ c.2 ∧ c.2 < mb + b)) =
        ((List.range b).map (fun j => L.countP (fun c => decide (c = (Λ, mb + j))))).sum := by
  intro L
  induction L with
  | nil => simp
  | cons x L ih =>
    simp only [List.countP_cons, decide_eq_true_eq, ih]
    rw [list_sum_map_add_nat]
    rw [sum_range_pair_indicator Λ mb x b]

lemma coord_on_path {b d : Nat} (hb0 : 0 < b) (lam p : Nat)
    (hc1 : lam ≤ d) (hc2 : p < b ^ lam) :
    p * b ^ (d - lam) < b ^ d ∧ p * b ^ (d - lam) / b ^ (d - lam) = p := by
  constructor
  · calc p * b ^ (d - lam) < b ^ lam * b ^ (d - lam) :=
        (Nat.mul_lt_mul_right (Nat.pos_pow_of_pos _ hb0)).mpr hc2
      _ = b ^ d := by rw [← pow_add]; congr 1; omega
  · exact Nat.mul_div_cancel _ (Nat.pos_pow_of_pos _ hb0)

lemma path_ancestor {b d : Nat} (hb0 : 0 < b) (a lam lam' : Nat)
    (h1 : lam' ≤ lam) (h2 : lam ≤ d) :
    a * b ^ (d - lam) / b ^ (d - lam') = a / b ^ (lam - lam') := by
  have hdecomp : d - lam' = (d - lam) + (lam - lam') := by omega
  rw [hdecomp, pow_add, ← Nat.div_div_eq_div_mul]
  congr 1
  exact Nat.mul_div_cancel _ (Nat.pos_pow_of_pos _ hb0)

lemma div_pow_succ {b : Nat} (a t : Nat) : a / b ^ (t + 1) = a / b / b ^ t := by
  rw [pow_succ', ← Nat.div_div_eq_div_mul]

/-- The invariant of the synthesizer loop: all node levels are at least
-1, and the rooted coordinates form a tree cut. -/
def SynthOK (b d : Nat) (ns : List (SNode α)) : Prop :=
  (∀ x ∈ ns, -1 ≤ x.level) ∧ isCutR b d (ns.map coordOf)

lemma sortHead_spec {b d : Nat} (ns : List (SNode α)) (hb : 2 ≤ b) (hd : 1 ≤ d)
    (hok : SynthOK b d ns) (hlen2 : 1 < ns.length) :
    ∃ n1 s1, sortNodes ns = n1 :: s1 ∧ 0 ≤ n1.level ∧
      (∀ x ∈ ns, x.level ≤ n1.level) ∧
      (∀ x ∈ ns, x.level = n1.level → n1.index ≤ x.index) ∧
      (∀ x ∈ ns, 0 ≤ x.level) ∧
      (n1.level + 1).toNat ≤ d ∧ 1 ≤ (n1.level + 1).toNat ∧
      n1.index < b ^ (n1.level + 1).toNat ∧
      n1.index / b < b ^ ((n1.level + 1).toNat - 1) ∧
      n1.index = b * (n1.index / b) ∧
      (∀ j, j < b → (ns.map coordOf).countP
        (fun c => decide (c = ((n1.level + 1).toNat, b * (n1.index / b) + j))) = 1) := by
  obtain ⟨hlev, hcut⟩ := hok
  have hb0 : 0 < b := by omega
  have hperm := sortNodes_perm ns
  have hsorted := sortNodes_sorted ns
  have hslen : (sortNodes ns).length = ns.length := hperm.length_eq
  obtain ⟨n1, s1, hs⟩ : ∃ n1 s1, sortNodes ns = n1 :: s1 := by
    cases h : sortNodes ns with
    | nil => rw [h] at hslen; simp at hslen; omega
    | cons a l => exact ⟨a, l, rfl⟩
  have hsorted2 : (n1 :: s1).Sorted nodeBefore := by rw [← hs]; exact hsorted
  have hn1s : n1 ∈ sortNodes ns := by rw [hs]; exact List.mem_cons_self n1 s1
  have hn1ns : n1 ∈ ns := hperm.mem_iff.mp hn1s
  have hmax : ∀ x ∈ ns, x.level ≤ n1.level := by
    intro x hx
    have hxs : x ∈ sortNodes ns := hperm.mem_iff.mpr hx
    rw [hs] at hxs
    rcases List.mem_cons.mp hxs with h | h
    · rw [h]
    · have hr := List.rel_of_sorted_cons hsorted2 x h
      unfold nodeBefore at hr
      rcases hr with h2 | ⟨h2, _⟩
      · omega
      · omega
  have hminidx : ∀ x ∈ ns, x.level = n1.level → n1.index ≤ x.index := by
    intro x hx hxl
    have hxs : x ∈ sortNodes ns := hperm.mem_iff.mpr hx
    rw [hs] at hxs
    rcases List.mem_cons.mp hxs with h | h
    · rw [h]
    · have hr := List.rel_of_sorted_cons hsorted2 x h
      unfold nodeBefore at hr
      rcases hr with h2 | ⟨_, h2⟩
      · omega
      · exact h2
  have hvalid : ∀ x ∈ ns, ((x.level + 1).toNat ≤ d ∧ x.index < b ^ (x.level + 1).toNat) := by
    intro x hx
    exact hcut.1 (coordOf x) (List.mem_map_of_mem coordOf hx)
  have huniq : ∀ q, q < b ^ d → ∀ c1 ∈ ns.map coordOf, ∀ c2 ∈ ns.map coordOf,
      c1.2 = q / b ^ (d - c1.1) → c2.2 = q / b ^ (d - c2.1) → c1 = c2 := by
    intro q hq c1 h1 c2 h2 hp1 hp2
    exact eq_of_countP_eq_one _ _ (hcut.2 q hq) c1 h1 c2 h2
      (by rw [decide_eq_true_eq]; exact hp1) (by rw [decide_eq_true_eq]; exact hp2)
  have hlev0 : ∀ x ∈ ns, 0 ≤ x.level := by
    intro x hx
    by_contra hneg
    push_neg at hneg
    have hxm1 : x.level = -1 := by have := hlev x hx; omega
    have hx0 : x.index = 0 := by
      have hv := (hvalid x hx).2
      rw [hxm1] at hv
      simpa using hv
    have hcoordx : coordOf x = (0, 0) := by
      unfold coordOf
      rw [hxm1, hx0]
      rfl
    have hall : ∀ c ∈ ns.map coordOf, c = (0, 0) := by
      intro c hc
      have hcv := hcut.1 c hc
      have honc := coord_on_path hb0 c.1 c.2 hcv.1 hcv.2
      refine huniq (c.2 * b ^ (d - c.1)) honc.1 c hc (0, 0)
        (by rw [← hcoordx]; exact List.mem_map_of_mem coordOf hx) honc.2.symm ?_
      show (0:Nat) = c.2 * b ^ (d - c.1) / b ^ (d - 0)
      rw [Nat.sub_zero]
      exact (Nat.div_eq_of_lt honc.1).symm
    have h0q : (0:Nat) < b ^ d := Nat.pos_pow_of_pos d hb0
    have hcnt := hcut.2 0 h0q
    have hfull : (ns.map coordOf).countP
        (fun c => decide (c.2 = 0 / b ^ (d - c.1))) = (ns.map coordOf).length := by
      apply List.countP_eq_length.mpr
      intro c hc
      rw [decide_eq_true_eq, hall c hc]
      simp
    rw [hfull, List.length_map] at hcnt
    omega
  have hL0 : 0 ≤ n1.level := hlev0 n1 hn1ns
  have hvn1 := hvalid n1 hn1ns
  have hΛ1 : 1 ≤ (n1.level + 1).toNat := by omega
  have hmlt : n1.index / b < b ^ ((n1.level + 1).toNat - 1) := by
    have h2 : (n1.level + 1).toNat - 1 + 1 = (n1.level + 1).toNat := by omega
    have hsplit : b ^ ((n1.level + 1).toNat - 1) * b = b ^ (n1.level + 1).toNat := by
      rw [← pow_succ, h2]
    refine (Nat.div_lt_iff_lt_mul hb0).mpr ?_
    rw [hsplit]
    exact hvn1.2
  have hpath_level : ∀ c ∈ ns.map coordOf, ∀ a : Nat, a < b ^ (n1.level + 1).toNat →
      a / b = n1.index / b →
      c.2 = a * b ^ (d - (n1.level + 1).toNat) / b ^ (d - c.1) →
      c.1 = (n1.level + 1).toNat ∧ c.2 = a := by
    intro c hc a ha ham honpath
    have hcv := hcut.1 c hc
    have hcmax : c.1 ≤ (n1.level + 1).toNat := by
      rcases List.mem_map.mp hc with ⟨y, hy, hyc⟩
      have h1 := hmax y hy
      have h2 := hlev y hy
      rw [← hyc]
      show (y.level + 1).toNat ≤ (n1.level + 1).toNat
      omega
    by_cases hceq : c.1 = (n1.level + 1).toNat
    · refine ⟨hceq, ?_⟩
      rw [honpath, hceq, path_ancestor hb0 a _ _ le_rfl hvn1.1, Nat.sub_self, pow_zero,
        Nat.div_one]
    · exfalso
      have hclt : c.1 < (n1.level + 1).toNat := by omega
      have hsplit : (n1.level + 1).toNat - c.1 = ((n1.level + 1).toNat - 1 - c.1) + 1 := by
        omega
      have hc2 : c.2 = n1.index / b / b ^ ((n1.level + 1).toNat - 1 - c.1) := by
        rw [honpath, path_ancestor hb0 a _ _ (le_of_lt hclt) hvn1.1, hsplit, div_pow_succ,
          ham]
      have honc := coord_on_path hb0 ((n1.level + 1).toNat) n1.index hvn1.1 hvn1.2
      have hconq0 : c.2 = n1.index * b ^ (d - (n1.level + 1).toNat) / b ^ (d - c.1) := by
        rw [path_ancestor hb0 n1.index _ _ (le_of_lt hclt) hvn1.1, hsplit, div_pow_succ]
        exact hc2
      have heqc := huniq (n1.index * b ^ (d - (n1.level + 1).toNat)) honc.1 c hc
        (coordOf n1) (List.mem_map_of_mem coordOf hn1ns) hconq0 ?_
      · rw [heqc] at hclt
        exact absurd hclt (by show ¬ ((n1.level + 1).toNat < (n1.level + 1).toNat); omega)
      · show n1.index = n1.index * b ^ (d - (n1.level + 1).toNat) /
          b ^ (d - (n1.level + 1).toNat)
        exact honc.2.symm
  have hsib : ∀ j, j < b → ((n1.level + 1).toNat, b * (n1.index / b) + j) ∈ ns.map coordOf := by
    intro j hj
    have haj : b * (n1.index / b) + j < b ^ (n1.level + 1).toNat := by
      have h2 : (n1.level + 1).toNat - 1 + 1 = (n1.level + 1).toNat := by omega
      have hsplit : b * b ^ ((n1.level + 1).toNat - 1) = b ^ (n1.level + 1).toNat := by
        rw [← pow_succ', h2]
      calc b * (n1.index / b) + j < b * (n1.index / b) + b := by omega
        _ = b * (n1.index / b + 1) := by ring
        _ ≤ b * b ^ ((n1.level + 1).toNat - 1) := Nat.mul_le_mul_left b (by omega)
        _ = b ^ (n1.level + 1).toNat := hsplit
    have honc := coord_on_path hb0 ((n1.level + 1).toNat) (b * (n1.index / b) + j)
      hvn1.1 haj
    have hcnt := hcut.2 _ honc.1
    have hex : ∃ c ∈ ns.map coordOf,
        (fun c : Nat × Nat => decide (c.2 =
          (b * (n1.index / b) + j) * b ^ (d - (n1.level + 1).toNat) / b ^ (d - c.1))) c
          = true :=
      List.countP_pos_iff.mp (by omega)
    rcases hex with ⟨c, hc, hpred⟩
    rw [decide_eq_true_eq] at hpred
    have ham : (b * (n1.index / b) + j) / b = n1.index / b := by
      rw [Nat.mul_add_div hb0, Nat.div_eq_of_lt hj]
      omega
    have := hpath_level c hc _ haj ham hpred
    have hceq : c = ((n1.level + 1).toNat, b * (n1.index / b) + j) := by
      obtain ⟨c1, c2⟩ := c
      simp only [Prod.mk.injEq]
      exact ⟨this.1, this.2⟩
    rw [← hceq]
    exact hc
  have hbase : n1.index = b * (n1.index / b) := by
    rcases List.mem_map.mp (hsib 0 (by omega)) with ⟨y, hy, hyc⟩
    have hylev : y.level = n1.level := by
      have h1 : (y.level + 1).toNat = (n1.level + 1).toNat := by
        have := congrArg Prod.fst hyc
        simpa [coordOf] using this
      have h2 := hlev y hy
      omega
    have hyidx : y.index = b * (n1.index / b) := by
      have := congrArg Prod.snd hyc
      simpa [coordOf] using this
    have h1 := hminidx y hy hylev
    have h2 : b * (n1.index / b) ≤ n1.index := by
      have h3 := Nat.div_mul_le_self n1.index b
      have hcm : n1.index / b * b = b * (n1.index / b) := Nat.mul_comm _ _
      omega
    omega
  refine ⟨n1, s1, hs, hL0, hmax, hminidx, hlev0, hvn1.1, hΛ1, hvn1.2, hmlt, hbase, ?_⟩
  intro j hj
  -- exactly-once for each sibling coordinate
  have haj : b * (n1.index / b) + j < b ^ (n1.level + 1).toNat := by
    have h2 : (n1.level + 1).toNat - 1 + 1 = (n1.level + 1).toNat := by omega
    have hsplit : b * b ^ ((n1.level + 1).toNat - 1) = b ^ (n1.level + 1).toNat := by
      rw [← pow_succ', h2]
    calc b * (n1.index / b) + j < b * (n1.index / b) + b := by omega
      _ = b * (n1.index / b + 1) := by ring
      _ ≤ b * b ^ ((n1.level + 1).toNat - 1) := Nat.mul_le_mul_left b (by omega)
      _ = b ^ (n1.level + 1).toNat := hsplit
  have honc := coord_on_path hb0 ((n1.level + 1).toNat) (b * (n1.index / b) + j)
    hvn1.1 haj
  have ham : (b * (n1.index / b) + j) / b = n1.index / b := by
    rw [Nat.mul_add_div hb0, Nat.div_eq_of_lt hj]
    omega
  refine Eq.trans (List.countP_congr ?_) (hcut.2 _ honc.1)
  intro c hc
  simp only [decide_eq_true_eq]
  constructor
  · intro hceq
    rw [hceq]
    show (b * (n1.index / b) + j : Nat) =
      (b * (n1.index / b) + j) * b ^ (d - (n1.level + 1).toNat) /
        b ^ (d - (n1.level + 1).toNat)
    exact honc.2.symm
  · intro honp
    have := hpath_level c hc _ haj ham honp
    obtain ⟨c1, c2⟩ := c
    simp only [Prod.mk.injEq]
    exact ⟨this.1, this.2⟩

lemma iwpStep_spec {b d : Nat} (inverse : List α → α) (ns : List (SNode α))
    (hb : 2 ≤ b) (hd : 1 ≤ d) (hok : SynthOK b d ns) (hlen2 : 1 < ns.length) :
    ∃ n1 s1, sortNodes ns = n1 :: s1 ∧ 0 ≤ n1.level ∧
      (∀ x ∈ ns, x.level ≤ n1.level) ∧
      n1.index = b * (n1.index / b) ∧
      (∀ x ∈ (sortNodes ns).take b, x.level = n1.level ∧
        b * (n1.index / b) ≤ x.index ∧ x.index < b * (n1.index / b) + b) ∧
      (∀ j, j < b → ((sortNodes ns).take b).countP
        (fun x => decide (x.index = b * (n1.index / b) + j)) = 1) ∧
      iwpStep b inverse ns = some ((sortNodes ns).drop b ++
        [(⟨inverse (((sortNodes ns).take b).map SNode.C), n1.level - 1, n1.index / b⟩ : SNode α)]) ∧
      SynthOK b d ((sortNodes ns).drop b ++
        [(⟨inverse (((sortNodes ns).take b).map SNode.C), n1.level - 1, n1.index / b⟩ : SNode α)]) ∧
      ((sortNodes ns).drop b ++
        [(⟨inverse (((sortNodes ns).take b).map SNode.C), n1.level - 1,
          n1.index / b⟩ : SNode α)]).length + b = ns.length + 1 := by
  obtain ⟨n1, s1, hs, hL0, hmax, hminidx, hlev0, hΛd, hΛ1, hidxlt, hmlt, hbase, hcnt⟩ :=
    sortHead_spec ns hb hd hok hlen2
  obtain ⟨hlev, hcut⟩ := hok
  have hb0 : 0 < b := by omega
  have hperm := sortNodes_perm ns
  have hsorted := sortNodes_sorted ns
  have hslen : (sortNodes ns).length = ns.length := hperm.length_eq
  have hcntS : ∀ j, j < b → ns.countP
      (fun x => decide (x.level = n1.level ∧ x.index = b * (n1.index / b) + j)) = 1 := by
    intro j hj
    have h1 := hcnt j hj
    rw [List.countP_map] at h1
    refine Eq.trans (List.countP_congr ?_) h1
    intro x hx
    simp only [Function.comp_apply, decide_eq_true_eq, coordOf, Prod.mk.injEq]
    have h0 := hlev0 x hx
    constructor
    · rintro ⟨h2, h3⟩
      exact ⟨by omega, h3⟩
    · rintro ⟨h2, h3⟩
      exact ⟨by omega, h3⟩
  have hsibcnt : ns.countP (fun x => decide (x.level = n1.level ∧
      b * (n1.index / b) ≤ x.index ∧ x.index < b * (n1.index / b) + b)) = b := by
    have h1 := countP_sib_eq_sum b ((n1.level + 1).toNat) (b * (n1.index / b)) (ns.map coordOf)
    have h2 : ((List.range b).map (fun j => (ns.map coordOf).countP
        (fun c => decide (c = ((n1.level + 1).toNat, b * (n1.index / b) + j))))).sum
        = ((List.range b).map (fun _ => (1:Nat))).sum := by
      congr 1
      apply List.map_congr_left
      intro j hj
      exact hcnt j (List.mem_range.mp hj)
    rw [h2, sum_map_one, List.length_range] at h1
    rw [List.countP_map] at h1
    refine Eq.trans (List.countP_congr ?_) h1
    intro x hx
    simp only [Function.comp_apply, decide_eq_true_eq, coordOf]
    have h0 := hlev0 x hx
    constructor
    · rintro ⟨h2, h3, h4⟩
      exact ⟨by omega, h3, h4⟩
    · rintro ⟨h2, h3, h4⟩
      exact ⟨by omega, h3, h4⟩
  have hsibcntS : (sortNodes ns).countP (fun x => decide (x.level = n1.level ∧
      b * (n1.index / b) ≤ x.index ∧ x.index < b * (n1.index / b) + b)) = b := by
    rw [hperm.countP_eq]
    exact hsibcnt
  have hble : b ≤ (sortNodes ns).length := by
    rw [← hsibcntS]
    exact List.countP_le_length _
  have htklen : ((sortNodes ns).take b).length = b := by
    rw [List.length_take]
    exact Nat.min_eq_left hble
  have hsorted_split : ((sortNodes ns).take b).Sorted nodeBefore ∧
      ((sortNodes ns).drop b).Sorted nodeBefore ∧
      ∀ x ∈ (sortNodes ns).take b, ∀ y ∈ (sortNodes ns).drop b, nodeBefore x y := by
    have h1 : ((sortNodes ns).take b ++ (sortNodes ns).drop b).Sorted nodeBefore := by
      rw [List.take_append_drop]
      exact hsorted
    unfold List.Sorted at h1
    rw [List.pairwise_append] at h1
    exact h1
  have htakemem : ∀ x ∈ (sortNodes ns).take b, x ∈ ns := fun x hx =>
    hperm.mem_iff.mp (List.mem_of_mem_take hx)
  have hdropmem : ∀ y ∈ (sortNodes ns).drop b, y ∈ ns := fun y hy =>
    hperm.mem_iff.mp (List.mem_of_mem_drop hy)
  have hsplitcnt : ((sortNodes ns).take b).countP (fun x => decide (x.level = n1.level ∧
      b * (n1.index / b) ≤ x.index ∧ x.index < b * (n1.index / b) + b)) +
      ((sortNodes ns).drop b).countP (fun x => decide (x.level = n1.level ∧
      b * (n1.index / b) ≤ x.index ∧ x.index < b * (n1.index / b) + b)) = b := by
    rw [← List.countP_append, List.take_append_drop]
    exact hsibcntS
  have hdrop0 : ((sortNodes ns).drop b).countP (fun x => decide (x.level = n1.level ∧
      b * (n1.index / b) ≤ x.index ∧ x.index < b * (n1.index / b) + b)) = 0 := by
    by_contra hne
    have hpos : 0 < ((sortNodes ns).drop b).countP (fun x => decide (x.level = n1.level ∧
        b * (n1.index / b) ≤ x.index ∧ x.index < b * (n1.index / b) + b)) :=
      Nat.pos_of_ne_zero hne
    obtain ⟨y, hy, hyp⟩ := List.countP_pos_iff.mp hpos
    simp only [decide_eq_true_eq] at hyp
    obtain ⟨hyl, hyi1, hyi2⟩ := hyp
    have htklt : ((sortNodes ns).take b).countP (fun x => decide (x.level = n1.level ∧
        b * (n1.index / b) ≤ x.index ∧ x.index < b * (n1.index / b) + b)) <
        ((sortNodes ns).take b).length := by
      rw [htklen]
      omega
    have hex : ∃ x ∈ (sortNodes ns).take b, ¬(x.level = n1.level ∧
        b * (n1.index / b) ≤ x.index ∧ x.index < b * (n1.index / b) + b) := by
      by_contra hnone
      push_neg at hnone
      have hall2 : ∀ x ∈ (sortNodes ns).take b, (fun x => decide (x.level = n1.level ∧
          b * (n1.index / b) ≤ x.index ∧ x.index < b * (n1.index / b) + b)) x = true := by
        intro x hx
        simp only [decide_eq_true_eq]
        exact hnone x hx
      have hlen3 := List.countP_eq_length.mpr hall2
      omega
    obtain ⟨x, hx, hxp⟩ := hex
    have hcross := hsorted_split.2.2 x hx y hy
    unfold nodeBefore at hcross
    have hxns := htakemem x hx
    have hxlev := hmax x hxns
    rcases hcross with hc | ⟨hc, hci⟩
    · omega
    · have hxmin := hminidx x hxns (by omega)
      exact hxp ⟨by omega, by omega, by omega⟩
  have halltake : ∀ x ∈ (sortNodes ns).take b, x.level = n1.level ∧
      b * (n1.index / b) ≤ x.index ∧ x.index < b * (n1.index / b) + b := by
    intro x hx
    have htkfull : ((sortNodes ns).take b).countP (fun x => decide (x.level = n1.level ∧
        b * (n1.index / b) ≤ x.index ∧ x.index < b * (n1.index / b) + b)) =
        ((sortNodes ns).take b).length := by
      rw [htklen]
      omega
    have hall := List.countP_eq_length.mp htkfull x hx
    simp only [decide_eq_true_eq] at hall
    exact hall
  have htakecnt : ∀ j, j < b → ((sortNodes ns).take b).countP
      (fun x => decide (x.index = b * (n1.index / b) + j)) = 1 := by
    intro j hj
    have hstep1 : ((sortNodes ns).take b).countP
        (fun x => decide (x.index = b * (n1.index / b) + j)) =
        ((sortNodes ns).take b).countP
        (fun x => decide (x.level = n1.level ∧ x.index = b * (n1.index / b) + j)) := by
      refine List.countP_congr ?_
      intro x hx
      simp only [decide_eq_true_eq]
      have hsx := halltake x hx
      constructor
      · intro h3
        exact ⟨hsx.1, h3⟩
      · intro h3
        exact h3.2
    have hdropj : ((sortNodes ns).drop b).countP
        (fun x => decide (x.level = n1.level ∧ x.index = b * (n1.index / b) + j)) = 0 := by
      apply List.countP_eq_zero.mpr
      intro y hy
      simp only [decide_eq_true_eq]
      intro hyc
      have h0 := List.countP_eq_zero.mp hdrop0 y hy
      simp only [decide_eq_true_eq] at h0
      exact h0 ⟨hyc.1, by omega, by omega⟩
    have hsum : ((sortNodes ns).take b).countP
        (fun x => decide (x.level = n1.level ∧ x.index = b * (n1.index / b) + j)) +
        ((sortNodes ns).drop b).countP
        (fun x => decide (x.level = n1.level ∧ x.index = b * (n1.index / b) + j)) = 1 := by
      rw [← List.countP_append, List.take_append_drop, hperm.countP_eq]
      exact hcntS j hj
    omega
  have hble2 : b ≤ (n1 :: s1).length := by
    rw [← hs]
    exact hble
  have hstepeq : iwpStep b inverse ns = some ((sortNodes ns).drop b ++
      [(⟨inverse (((sortNodes ns).take b).map SNode.C), n1.level - 1, n1.index / b⟩ : SNode α)]) := by
    simp only [iwpStep, hs]
    rw [if_pos hble2]
  have hcoordm : coordOf (⟨inverse (((sortNodes ns).take b).map SNode.C), n1.level - 1,
      n1.index / b⟩ : SNode α) = ((n1.level + 1).toNat - 1, n1.index / b) := by
    simp only [coordOf]
    congr 1
    omega
  have hoknext : SynthOK b d ((sortNodes ns).drop b ++
      [(⟨inverse (((sortNodes ns).take b).map SNode.C), n1.level - 1, n1.index / b⟩ : SNode α)]) := by
    constructor
    · intro x hx
      rcases List.mem_append.mp hx with h | h
      · exact hlev x (hdropmem x h)
      · have hxm := List.mem_singleton.mp h
        rw [hxm]
        show (-1 : Int) ≤ n1.level - 1
        omega
    · constructor
      · intro c hc
        rw [List.map_append] at hc
        rcases List.mem_append.mp hc with h | h
        · refine hcut.1 c ?_
          rcases List.mem_map.mp h with ⟨y, hy, hyc⟩
          rw [← hyc]
          exact List.mem_map_of_mem coordOf (hdropmem y hy)
        · simp only [List.map_cons, List.map_nil, List.mem_singleton] at h
          rw [h, hcoordm]
          refine ⟨?_, ?_⟩
          · show (n1.level + 1).toNat - 1 ≤ d
            omega
          · show n1.index / b < b ^ ((n1.level + 1).toNat - 1)
            exact hmlt
      · intro q hq
        rw [List.map_append, List.countP_append]
        have hA : q / b ^ (d - (n1.level + 1).toNat) / b =
            q / b ^ (d - ((n1.level + 1).toNat - 1)) := by
          have hde : d - ((n1.level + 1).toNat - 1) = (d - (n1.level + 1).toNat) + 1 := by
            omega
          rw [hde, pow_succ, ← Nat.div_div_eq_div_mul]
        have hmcount : ((List.map coordOf [(⟨inverse (((sortNodes ns).take b).map SNode.C),
            n1.level - 1, n1.index / b⟩ : SNode α)]).countP
            (fun c => decide (c.2 = q / b ^ (d - c.1)))) =
            if b * (n1.index / b) ≤ q / b ^ (d - (n1.level + 1).toNat) ∧
               q / b ^ (d - (n1.level + 1).toNat) < b * (n1.index / b) + b
            then 1 else 0 := by
          simp only [List.map_cons, List.map_nil, hcoordm, List.countP_cons, List.countP_nil,
            decide_eq_true_eq]
          have h2 := div_eq_iff_between hb0 (q / b ^ (d - (n1.level + 1).toNat))
            (n1.index / b)
          rw [hA] at h2
          by_cases hcond : b * (n1.index / b) ≤ q / b ^ (d - (n1.level + 1).toNat) ∧
              q / b ^ (d - (n1.level + 1).toNat) < b * (n1.index / b) + b
          · rw [if_pos hcond, if_pos (h2.mpr hcond).symm]
          · rw [if_neg hcond, if_neg (fun hme => hcond (h2.mp hme.symm))]
        have htkq : (((sortNodes ns).take b).map coordOf).countP
            (fun c => decide (c.2 = q / b ^ (d - c.1))) =
            if b * (n1.index / b) ≤ q / b ^ (d - (n1.level + 1).toNat) ∧
               q / b ^ (d - (n1.level + 1).toNat) < b * (n1.index / b) + b
            then 1 else 0 := by
          rw [List.countP_map]
          by_cases hcond : b * (n1.index / b) ≤ q / b ^ (d - (n1.level + 1).toNat) ∧
              q / b ^ (d - (n1.level + 1).toNat) < b * (n1.index / b) + b
          · rw [if_pos hcond]
            have hj0 : q / b ^ (d - (n1.level + 1).toNat) - b * (n1.index / b) < b := by
              omega
            have h1 := htakecnt _ hj0
            refine Eq.trans (List.countP_congr ?_) h1
            intro x hx
            simp only [Function.comp_apply, coordOf, decide_eq_true_eq]
            have hsx := halltake x hx
            rw [hsx.1]
            omega
          · rw [if_neg hcond]
            apply List.countP_eq_zero.mpr
            intro x hx
            simp only [Function.comp_apply, coordOf, decide_eq_true_eq]
            have hsx := halltake x hx
            rw [hsx.1]
            omega
        have hsumq : (((sortNodes ns).take b).map coordOf).countP
            (fun c => decide (c.2 = q / b ^ (d - c.1))) +
            (((sortNodes ns).drop b).map coordOf).countP
            (fun c => decide (c.2 = q / b ^ (d - c.1))) = 1 := by
          rw [← List.countP_append, ← List.map_append, List.take_append_drop,
            (hperm.map coordOf).countP_eq]
          exact hcut.2 q hq
        by_cases hcond : b * (n1.index / b) ≤ q / b ^ (d - (n1.level + 1).toNat) ∧
            q / b ^ (d - (n1.level + 1).toNat) < b * (n1.index / b) + b
        · rw [hmcount, if_pos hcond]
          rw [htkq, if_pos hcond] at hsumq
          omega
        · rw [hmcount, if_neg hcond]
          rw [htkq, if_neg hcond] at hsumq
          omega
  refine ⟨n1, s1, hs, hL0, hmax, hbase, halltake, htakecnt, hstepeq, hoknext, ?_⟩
  rw [List.length_append, List.length_drop, hslen]
  simp only [List.length_singleton]
  have hble3 : b ≤ ns.length := by
    rw [← hslen]
    exact hble
  omega

lemma synthOK_nonempty {b d : Nat} (ns : List (SNode α)) (hb : 2 ≤ b)
    (hok : SynthOK b d ns) : 1 ≤ ns.length := by
  by_contra h
  push_neg at h
  have hnil : ns = [] := List.length_eq_zero.mp (by omega)
  have hcnt := hok.2.2 0 (Nat.pos_pow_of_pos d (by omega))
  rw [hnil] at hcnt
  simp at hcnt

lemma iwpLoop_terminates {b d : Nat} (inverse : List α → α) (hb : 2 ≤ b) (hd : 1 ≤ d) :
    ∀ fuel (ns : List (SNode α)), SynthOK b d ns → ns.length ≤ fuel →
      ∃ r, iwpLoop b inverse fuel ns = some r := by
  intro fuel
  induction fuel with
  | zero =>
    intro ns hok hlen
    have := synthOK_nonempty ns hb hok
    exact absurd hlen (by omega)
  | succ fuel ih =>
    intro ns hok hlen
    by_cases h1 : ns.length = 1
    · obtain ⟨x, hx⟩ : ∃ x, ns = [x] := List.length_eq_one.mp h1
      refine ⟨x.C, ?_⟩
      simp only [iwpLoop]
      rw [if_pos h1, hx]
      rfl
    · have hlen2 : 1 < ns.length := by
        have := synthOK_nonempty ns hb hok
        omega
      obtain ⟨n1, s1, hs, hL0, hmax, hbase, htk, hcnt, hstep, hoknext, hlennext⟩ :=
        iwpStep_spec inverse ns hb hd hok hlen2
      obtain ⟨r, hr⟩ := ih _ hoknext (by omega)
      refine ⟨r, ?_⟩
      simp only [iwpLoop]
      rw [if_neg h1, hstep]
      exact hr

lemma cut_size_mod {b d : Nat} (hb : 2 ≤ b) (hd : 1 ≤ d) :
    ∀ N (ns : List (SNode α)), ns.length ≤ N → SynthOK b d ns →
      ns.length % (b - 1) = 1 % (b - 1) := by
  intro N
  induction N with
  | zero =>
    intro ns hlen hok
    have := synthOK_nonempty ns hb hok
    omega
  | succ N ih =>
    intro ns hlen hok
    by_cases h1 : ns.length = 1
    · rw [h1]
    · have hlen2 : 1 < ns.length := by
        have := synthOK_nonempty ns hb hok
        omega
      obtain ⟨x0, hx0⟩ := List.exists_mem_of_ne_nil ns (List.length_pos.mp (by omega))
      obtain ⟨n1, s1, hs, hL0, hmax, hbase, htk, hcnt, hstep, hoknext, hlennext⟩ :=
        iwpStep_spec (fun _ => x0.C) ns hb hd hok hlen2
      obtain ⟨next, hstepn, hoknextn, hlennextn⟩ : ∃ next,
          iwpStep b (fun _ => x0.C) ns = some next ∧ SynthOK b d next ∧
          next.length + b = ns.length + 1 :=
        ⟨_, hstep, hoknext, hlennext⟩
      have hnext := ih next (by omega) hoknextn
      have hEq : ns.length = next.length + (b - 1) := by omega
      rw [hEq, Nat.add_mod_right]
      exact hnext

/-- C5: on a valid tree cut the synthesizer loop of `iwp` / `iwp2`
terminates; when one node is left its coefficient array is returned; and
as long as more than one node remains, each iteration takes the `b` nodes
popped first (deepest level first, ties by ascending index), which form a
complete sibling group — one common level and exactly the indices
`b*p ... b*p+b-1` —, merges their arrays with the inverse transform into
the single parent node `(level-1, p)`, and the remaining collection is
again a valid tree cut. -/
theorem iwp_merges_sibling_groups {b d : Nat} (inverse : List α → α)
    (ns : List (SNode α)) (hb : 2 ≤ b) (hd : 1 ≤ d) (hok : SynthOK b d ns) :
    (∃ r, iwpLoop b inverse ns.length ns = some r) ∧
    (∀ x, ns = [x] → iwpLoop b inverse ns.length ns = some x.C) ∧
    (1 < ns.length → ∃ n1 s1, sortNodes ns = n1 :: s1 ∧
      (∀ x ∈ ns, x.level ≤ n1.level) ∧
      n1.index = b * (n1.index / b) ∧
      (∀ x ∈ (sortNodes ns).take b, x.level = n1.level ∧
        b * (n1.index / b) ≤ x.index ∧ x.index < b * (n1.index / b) + b) ∧
      (∀ j, j < b → ((sortNodes ns).take b).countP
        (fun x => decide (x.index = b * (n1.index / b) + j)) = 1) ∧
      iwpStep b inverse ns = some ((sortNodes ns).drop b ++
        [(⟨inverse (((sortNodes ns).take b).map SNode.C), n1.level - 1,
          n1.index / b⟩ : SNode α)]) ∧
      SynthOK b d ((sortNodes ns).drop b ++
        [(⟨inverse (((sortNodes ns).take b).map SNode.C), n1.level - 1,
          n1.index / b⟩ : SNode α)])) := by
  refine ⟨iwpLoop_terminates inverse hb hd ns.length ns hok le_rfl, ?_, ?_⟩
  · intro x hx
    rw [hx]
    rfl
  · intro hlen2
    obtain ⟨n1, s1, hs, hL0, hmax, hbase, htk, hcnt, hstep, hoknext, hlennext⟩ :=
      iwpStep_spec inverse ns hb hd hok hlen2
    exact ⟨n1, s1, hs, hmax, hbase, htk, hcnt, hstep, hoknext⟩

theorem iwp_merges_sibling_groups_witness :
    ∃ r : ℚ, iwpLoop 2 (fun l => l.sum)
      ([(⟨(1:ℚ), 0, 0⟩ : SNode ℚ), ⟨(2:ℚ), 0, 1⟩]).length
      [(⟨(1:ℚ), 0, 0⟩ : SNode ℚ), ⟨(2:ℚ), 0, 1⟩] = some r :=
  (iwp_merges_sibling_groups (b := 2) (d := 1) (fun l => l.sum)
    [(⟨(1:ℚ), 0, 0⟩ : SNode ℚ), ⟨(2:ℚ), 0, 1⟩]
    (by decide) (by decide) ⟨by decide, by decide, by decide⟩).1

/-- C10: each iteration of the synthesizer loop consumes `b` nodes and
produces one, so the node count drops by exactly `b-1`; a valid tree cut
has size congruent to 1 modulo `b-1`; the loop terminates (with fuel
`ns.length`) on every valid tree cut; and the `b` nodes taken in a step
share one level and have the consecutive indices `b*p ... b*p+b-1`. -/
theorem synth_step_count {b d : Nat} (inverse : List α → α) (ns : List (SNode α))
    (hb : 2 ≤ b) (hd : 1 ≤ d) (hok : SynthOK b d ns) :
    ns.length % (b - 1) = 1 % (b - 1) ∧
    (∃ r, iwpLoop b inverse ns.length ns = some r) ∧
    (1 < ns.length → ∃ next, iwpStep b inverse ns = some next ∧
      next.length + b = ns.length + 1 ∧ SynthOK b d next ∧
      ∃ n1 s1, sortNodes ns = n1 :: s1 ∧
        (∀ x ∈ ns, x.level ≤ n1.level) ∧
        (∀ x ∈ (sortNodes ns).take b, x.level = n1.level ∧
          b * (n1.index / b) ≤ x.index ∧ x.index < b * (n1.index / b) + b)) := by
  refine ⟨cut_size_mod hb hd ns.length ns le_rfl hok,
    iwpLoop_terminates inverse hb hd ns.length ns hok le_rfl, ?_⟩
  intro hlen2
  obtain ⟨n1, s1, hs, hL0, hmax, hbase, htk, hcnt, hstep, hoknext, hlennext⟩ :=
    iwpStep_spec inverse ns hb hd hok hlen2
  exact ⟨_, hstep, hlennext, hoknext, n1, s1, hs, hmax, htk⟩

theorem synth_step_count_witness :
    ([(⟨(1:ℚ), 0, 0⟩ : SNode ℚ), ⟨(2:ℚ), 0, 1⟩] : List (SNode ℚ)).length % (2 - 1)
      = 1 % (2 - 1) :=
  (synth_step_count (b := 2) (d := 1) (fun l => l.sum) [(⟨(1:ℚ), 0, 0⟩ : SNode ℚ), ⟨(2:ℚ), 0, 1⟩]
    (by decide) (by decide) ⟨by decide, by decide, by decide⟩).1

end FingerprintCompression
